import Mathlib

/-!
# Verification of the docpulse dependency-graph core

Shallow embedding of `src/graph/graph.ts`, the import resolver
(`resolveImport` / `resolvePathAlias`), and `src/graph/parser.ts`.

JavaScript `Map` values are embedded as insertion-ordered association
lists (`Map.set` overwrites in place or appends; `Map.get` returns the
entry's value or `undefined`, embedded as `Option`).  JavaScript `Set`
values are embedded as duplicate-free insertion-ordered lists
(`Set.add` appends when the element is absent).
-/

namespace DocPulse

/-- JS `Map.get`: the value stored at key `k`, if present. -/
def mapGet {α : Type} (m : List (String × α)) (k : String) : Option α :=
  (m.find? (fun e => e.1 == k)).map (fun e => e.2)

/-- JS `Map.set`: overwrite the entry for `k` in place if present, else append. -/
def mapSet {α : Type} (m : List (String × α)) (k : String) (v : α) :
    List (String × α) :=
  if (m.find? (fun e => e.1 == k)).isSome then
    m.map (fun e => if e.1 == k then (k, v) else e)
  else
    m ++ [(k, v)]

/-- In-place mutation of the value stored at key `k` (JS `m.get(k)?.mutate()` /
mutation of the object held in the map); a no-op when `k` is absent. -/
def mapUpdate {α : Type} (m : List (String × α)) (k : String) (f : α → α) :
    List (String × α) :=
  m.map (fun e => if e.1 == k then (e.1, f e.2) else e)

/-- JS `Set.add`: append the element when it is not already present. -/
def setAdd (s : List String) (x : String) : List String :=
  if x ∈ s then s else s ++ [x]

theorem find?_map_keyIf {α : Type} (m : List (String × α)) (k k' : String)
    (g : String × α → String × α) (hg : ∀ e, (g e).1 = if e.1 = k then k else e.1) :
    (m.map g).find? (fun e => e.1 == k') =
      ((m.find? (fun e => e.1 == k')).map g) := by
  have hp : ((fun e => e.1 == k') ∘ g) = (fun (e : String × α) => e.1 == k') := by
    funext e
    simp only [Function.comp_apply, hg e]
    by_cases he : e.1 = k
    · by_cases hk : k = k' <;> simp [he, hk]
    · simp [he]
  rw [List.find?_map, hp]

theorem mapGet_mapSet_self {α : Type} (m : List (String × α)) (k : String) (v : α) :
    mapGet (mapSet m k v) k = some v := by
  unfold mapGet mapSet
  by_cases h : (m.find? (fun e => e.1 == k)).isSome = true
  · rw [if_pos h]
    rw [find?_map_keyIf m k k _ (by
      intro e
      by_cases he : e.1 = k <;> simp [he])]
    rcases Option.isSome_iff_exists.mp h with ⟨e0, he0⟩
    have hk := List.find?_some he0
    simp only [beq_iff_eq] at hk
    simp [he0, hk]
  · rw [if_neg h]
    rw [List.find?_append]
    rw [Option.not_isSome_iff_eq_none] at h
    simp [h, List.find?]

theorem mapGet_mapSet_ne {α : Type} (m : List (String × α)) (k k' : String) (v : α)
    (h : k' ≠ k) : mapGet (mapSet m k v) k' = mapGet m k' := by
  unfold mapGet mapSet
  by_cases hf : (m.find? (fun e => e.1 == k)).isSome = true
  · rw [if_pos hf]
    rw [find?_map_keyIf m k k' _ (by
      intro e
      by_cases he : e.1 = k <;> simp [he])]
    cases hf0 : m.find? (fun e => e.1 == k') with
    | none => simp
    | some e0 =>
      have hk := List.find?_some hf0
      simp only [beq_iff_eq] at hk
      have hne : ¬ e0.1 = k := by rw [hk]; exact h
      simp [hne]
  · rw [if_neg hf]
    rw [List.find?_append]
    have hnone : List.find? (fun e => e.1 == k') [(k, v)] = none := by
      rw [List.find?_eq_none]
      intro x hx
      simp only [List.mem_singleton] at hx
      subst hx
      simp only [beq_iff_eq]
      exact fun hc => h hc.symm
    simp [hnone]

theorem mapGet_mapUpdate_self {α : Type} (m : List (String × α)) (k : String)
    (f : α → α) : mapGet (mapUpdate m k f) k = (mapGet m k).map f := by
  unfold mapGet mapUpdate
  rw [find?_map_keyIf m k k _ (by
    intro e
    by_cases he : e.1 = k <;> simp [he])]
  cases hf0 : m.find? (fun e => e.1 == k) with
  | none => simp
  | some e0 =>
    have hk := List.find?_some hf0
    simp only [beq_iff_eq] at hk
    simp [hk]

theorem mapGet_mapUpdate_ne {α : Type} (m : List (String × α)) (k k' : String)
    (f : α → α) (h : k' ≠ k) : mapGet (mapUpdate m k f) k' = mapGet m k' := by
  unfold mapGet mapUpdate
  rw [find?_map_keyIf m k k' _ (by
    intro e
    by_cases he : e.1 = k <;> simp [he])]
  cases hf0 : m.find? (fun e => e.1 == k') with
  | none => simp
  | some e0 =>
    have hk := List.find?_some hf0
    simp only [beq_iff_eq] at hk
    have hne : ¬ e0.1 = k := by rw [hk]; exact h
    simp [hne]

theorem mem_setAdd (s : List String) (x y : String) :
    y ∈ setAdd s x ↔ y ∈ s ∨ y = x := by
  unfold setAdd
  by_cases h : x ∈ s
  · simp only [h, if_true]
    constructor
    · exact fun hy => Or.inl hy
    · rintro (hy | rfl)
      · exact hy
      · exact h
  · simp [h]

theorem nodup_setAdd (s : List String) (x : String) (h : s.Nodup) :
    (setAdd s x).Nodup := by
  unfold setAdd
  by_cases hx : x ∈ s
  · simpa [hx]
  · rw [if_neg hx]
    rw [List.nodup_append]
    refine ⟨h, List.nodup_singleton x, ?_⟩
    intro a ha hb
    simp only [List.mem_singleton] at hb
    subst hb
    exact hx ha

/-! ## Path helpers (Node `path` module, POSIX, on absolute inputs) -/

/-- Split a character list on a separator character (the semantics of
`split(sep)` for a one-character separator), carrying the current
segment in reverse. -/
def splitOnChar (sep : Char) (cur : List Char) : List Char → List String
  | [] => [⟨cur.reverse⟩]
  | c :: rest =>
    if c = sep then ⟨cur.reverse⟩ :: splitOnChar sep [] rest
    else splitOnChar sep (c :: cur) rest

/-- Split on `/`. -/
def splitSegs (cur : List Char) (cs : List Char) : List String :=
  splitOnChar '/' cur cs

/-- Split a path string on `/`, dropping empty segments. -/
def splitPath (s : String) : List String :=
  (splitSegs [] s.data).filter (fun seg => seg ≠ "")

/-- Process `.` and `..` segments the way `path.resolve` normalizes an
absolute path (`..` at the root is dropped). -/
def normalizeSegs (segs : List String) : List String :=
  segs.foldl (fun acc seg =>
    if seg = "." then acc
    else if seg = ".." then acc.dropLast
    else acc ++ [seg]) []

/-- Render segments as an absolute path string (`[]` renders as `/`). -/
def renderAbs : List String → String
  | [] => "/"
  | [x] => "/" ++ x
  | x :: y :: rest => "/" ++ x ++ renderAbs (y :: rest)

def commonPrefixLen : List String → List String → Nat
  | a :: as, b :: bs => if a = b then commonPrefixLen as bs + 1 else 0
  | _, _ => 0

/-- Node `path.relative(from, to)` for absolute `from`/`to` (the only way
`buildDependencyGraph` calls it). -/
def relativeJS (fr tgt : String) : String :=
  let f := normalizeSegs (splitPath fr)
  let t := normalizeSegs (splitPath tgt)
  let c := commonPrefixLen f t
  String.intercalate "/" (List.replicate (f.length - c) ".." ++ t.drop c)

/-! ## Data model of `src/graph/parser.ts` and `src/graph/graph.ts` -/

/-- `ImportInfo` of `parser.ts`. -/
structure ImportInfo where
  source : String
  specifiers : List String
  isNamespace : Bool
  isDynamic : Bool
  deriving DecidableEq, Repr

/-- `ExportInfo` of `parser.ts`. -/
structure ExportInfo where
  source : Option String
  specifiers : List String
  isNamespace : Bool
  isDefault : Bool
  deriving DecidableEq, Repr

/-- `ModuleInfo` of `parser.ts`. -/
structure ModuleInfo where
  filePath : String
  imports : List ImportInfo
  exports : List ExportInfo
  deriving DecidableEq, Repr

/-- `GraphNode` of `graph.ts` (`dependencies`/`dependents` are JS arrays,
filled with `push`). -/
structure GraphNode where
  filePath : String
  relativePath : String
  dependencies : List String
  dependents : List String
  deriving DecidableEq, Repr

/-- `DependencyGraph` of `graph.ts`. -/
structure DependencyGraph where
  nodes : List (String × GraphNode)
  edges : List (String × List String)
  reverseEdges : List (String × List String)
  deriving DecidableEq, Repr

/-- JS `String.prototype.includes` (substring containment). -/
def jsIncludes (s sub : String) : Bool :=
  decide (sub.data <:+: s.data)

/-- `findModuleByImport` of `graph.ts`: the first module whose `filePath`
contains `importSource` as a substring. -/
def findModuleByImport (importSource : String) (modules : List ModuleInfo) :
    Option String :=
  (modules.find? (fun m => jsIncludes m.filePath importSource)).map
    (fun m => m.filePath)

/-- The node-creation loop of `buildDependencyGraph`. -/
def createNodes (modules : List ModuleInfo) (repoRoot : String) : DependencyGraph :=
  modules.foldl (fun g m =>
    { nodes := mapSet g.nodes m.filePath
        ⟨m.filePath, relativeJS repoRoot m.filePath, [], []⟩,
      edges := mapSet g.edges m.filePath [],
      reverseEdges := mapSet g.reverseEdges m.filePath [] })
    ⟨[], [], []⟩

/-- One iteration of the inner import loop of `buildDependencyGraph`:
`targetPath && nodes.has(targetPath)` guards the four updates (the two
adjacency `Set.add`s and the two `push`es on the live node objects). -/
def addEdgeForImport (modules : List ModuleInfo) (g : DependencyGraph)
    (fromPath : String) (imp : ImportInfo) : DependencyGraph :=
  match findModuleByImport imp.source modules with
  | none => g
  | some targetPath =>
    -- JS truthiness of `targetPath` (a string): non-null and non-empty.
    if targetPath ≠ "" ∧ (mapGet g.nodes targetPath).isSome then
      { edges := mapUpdate g.edges fromPath (fun s => setAdd s targetPath),
        reverseEdges :=
          mapUpdate g.reverseEdges targetPath (fun s => setAdd s fromPath),
        nodes :=
          mapUpdate
            (mapUpdate g.nodes fromPath
              (fun n => { n with dependencies := n.dependencies ++ [targetPath] }))
            targetPath
            (fun n => { n with dependents := n.dependents ++ [fromPath] }) }
    else g

/-- One iteration of the outer edge-creation loop (`if (!fromNode) continue`). -/
def processModule (modules : List ModuleInfo) (g : DependencyGraph)
    (m : ModuleInfo) : DependencyGraph :=
  if (mapGet g.nodes m.filePath).isSome then
    m.imports.foldl (fun g imp => addEdgeForImport modules g m.filePath imp) g
  else g

/-- `buildDependencyGraph` of `graph.ts`. -/
def buildDependencyGraph (modules : List ModuleInfo) (repoRoot : String) :
    DependencyGraph :=
  modules.foldl (processModule modules) (createNodes modules repoRoot)

/-! ## BFS traversals of `graph.ts` -/

/-- `graph.edges.get(path)` followed by the `if (deps)` guard: absent keys
contribute no neighbors. -/
def neighborsOf (E : List (String × List String)) (p : String) : List String :=
  (mapGet E p).getD []

/-- `depth > maxDepth` where `maxDepth` is a JS number that may be
`Infinity` (embedded as `none`). -/
def depthGt (d : Nat) (maxD : Option Nat) : Bool :=
  match maxD with
  | some m => decide (m < d)
  | none => false

/-- Every string that can ever appear in a queue entry pushed from `E`. -/
def univList (E : List (String × List String)) : List String :=
  E.map Prod.fst ++ (E.map Prod.snd).flatten

def maxOut (E : List (String × List String)) : Nat :=
  (E.map (fun e => e.2.length)).foldr Nat.max 0

/-- Termination measure for the BFS while-loop. -/
def bfsMeasure (E : List (String × List String)) (V : List String)
    (Q : List (String × Nat)) : Nat :=
  (((univList E ++ Q.map Prod.fst).toFinset) \ V.toFinset).card * (maxOut E + 1)
    + Q.length

theorem neighborsOf_cases (E : List (String × List String)) (p : String) :
    neighborsOf E p = [] ∨ ∃ e0 ∈ E, neighborsOf E p = e0.2 := by
  unfold neighborsOf mapGet
  cases hf : E.find? (fun e => e.1 == p) with
  | none => exact Or.inl rfl
  | some e0 =>
    exact Or.inr ⟨e0, List.mem_of_find?_eq_some hf, rfl⟩

theorem mem_univList_of_mem_neighborsOf (E : List (String × List String))
    (p x : String) (hx : x ∈ neighborsOf E p) : x ∈ univList E := by
  rcases neighborsOf_cases E p with h | ⟨e0, he0, h⟩
  · rw [h] at hx; simp at hx
  · rw [h] at hx
    unfold univList
    refine List.mem_append_right _ ?_
    rw [List.mem_flatten]
    exact ⟨e0.2, List.mem_map_of_mem _ he0, hx⟩

theorem le_foldr_max_of_mem (L : List Nat) (a : Nat) (hmem : a ∈ L) :
    a ≤ L.foldr Nat.max 0 := by
  induction L with
  | nil => simp at hmem
  | cons b L ih =>
    rcases List.mem_cons.mp hmem with rfl | hmem'
    · exact le_max_of_le_left (le_refl _)
    · exact le_max_of_le_right (ih hmem')

theorem length_neighborsOf_le (E : List (String × List String)) (p : String) :
    (neighborsOf E p).length ≤ maxOut E := by
  rcases neighborsOf_cases E p with h | ⟨e0, he0, h⟩
  · rw [h]; simp
  · rw [h]
    exact le_foldr_max_of_mem _ _ (List.mem_map_of_mem _ he0)

theorem bfs_dec_skip (E : List (String × List String)) (V : List String)
    (p : String) (d : Nat) (Q' : List (String × Nat)) :
    bfsMeasure E V Q' < bfsMeasure E V ((p, d) :: Q') := by
  unfold bfsMeasure
  have hsub : ((univList E ++ Q'.map Prod.fst).toFinset \ V.toFinset) ⊆
      ((univList E ++ ((p, d) :: Q').map Prod.fst).toFinset \ V.toFinset) := by
    intro x hx
    rw [Finset.mem_sdiff] at hx ⊢
    refine ⟨?_, hx.2⟩
    rcases List.mem_toFinset.mp hx.1 with hmem
    rw [List.mem_toFinset]
    rcases List.mem_append.mp hmem with h1 | h2
    · exact List.mem_append_left _ h1
    · exact List.mem_append_right _ (by simp_all [List.mem_map])
  have hcard := Finset.card_le_card hsub
  have := Nat.mul_le_mul_right (maxOut E + 1) hcard
  simp only [List.length_cons]
  omega

theorem bfs_dec_visit (E : List (String × List String)) (V : List String)
    (p : String) (d : Nat) (Q' : List (String × Nat)) (hp : p ∉ V) :
    bfsMeasure E (V ++ [p])
      (Q' ++ (neighborsOf E p).map (fun t => (t, d + 1))) <
      bfsMeasure E V ((p, d) :: Q') := by
  unfold bfsMeasure
  set K := maxOut E + 1 with hK
  set S := (univList E ++ ((p, d) :: Q').map Prod.fst).toFinset \ V.toFinset with hS
  set S' := (univList E ++
      (Q' ++ (neighborsOf E p).map (fun t => (t, d + 1))).map Prod.fst).toFinset \
      (V ++ [p]).toFinset with hS'
  have hpS : p ∈ S := by
    rw [hS, Finset.mem_sdiff, List.mem_toFinset, List.mem_toFinset]
    exact ⟨List.mem_append_right _ (by simp), by simpa using hp⟩
  have hsub : S' ⊆ S.erase p := by
    intro x hx
    rw [hS', Finset.mem_sdiff, List.mem_toFinset, List.mem_toFinset] at hx
    obtain ⟨hx1, hx2⟩ := hx
    have hxp : x ≠ p := by
      intro h
      exact hx2 (by simp [h])
    have hxV : x ∉ V := fun h => hx2 (by simp [h])
    rw [Finset.mem_erase]
    refine ⟨hxp, ?_⟩
    rw [hS, Finset.mem_sdiff, List.mem_toFinset, List.mem_toFinset]
    refine ⟨?_, by simpa using hxV⟩
    rcases List.mem_append.mp hx1 with h1 | h2
    · exact List.mem_append_left _ h1
    · rw [List.map_append, List.mem_append] at h2
      rcases h2 with h2a | h2b
      · refine List.mem_append_right _ ?_
        simp only [List.map_cons, List.mem_cons]
        exact Or.inr h2a
      · refine List.mem_append_left _ ?_
        rw [List.map_map] at h2b
        simp only [List.mem_map] at h2b
        obtain ⟨t, ht, rfl⟩ := h2b
        exact mem_univList_of_mem_neighborsOf E p t ht
  have hcard' : S'.card ≤ S.card - 1 := by
    calc S'.card ≤ (S.erase p).card := Finset.card_le_card hsub
    _ = S.card - 1 := Finset.card_erase_of_mem hpS
  have hcard1 : 1 ≤ S.card := Finset.card_pos.mpr ⟨p, hpS⟩
  have hlen : (Q' ++ (neighborsOf E p).map (fun t => (t, d + 1))).length ≤
      Q'.length + maxOut E := by
    rw [List.length_append, List.length_map]
    exact Nat.add_le_add_left (length_neighborsOf_le E p) _
  have hKpos : 1 ≤ K := by omega
  have hmul := Nat.mul_le_mul_right K hcard'
  have hSK : K ≤ S.card * K := by
    calc K = 1 * K := (Nat.one_mul K).symm
    _ ≤ S.card * K := Nat.mul_le_mul_right K hcard1
  calc S'.card * K + (Q' ++ (neighborsOf E p).map (fun t => (t, d + 1))).length
      ≤ (S.card - 1) * K + (Q'.length + maxOut E) := Nat.add_le_add hmul hlen
    _ = S.card * K - K + Q'.length + maxOut E := by
        rw [Nat.sub_one_mul]
        omega
    _ < S.card * K + ((p, d) :: Q').length := by
        simp only [List.length_cons]
        omega

/-- The while-loop of `getDependencies`/`getDependents` (they are textually
identical up to the adjacency map used): FIFO queue of `(path, depth)`
pairs, a visited set, skip when already visited or `depth > maxDepth`. -/
def bfsLoop (E : List (String × List String)) (maxD : Option Nat)
    (V : List String) (Q : List (String × Nat)) : List String :=
  match Q with
  | [] => V
  | (p, d) :: Q' =>
    if h : p ∈ V ∨ depthGt d maxD then bfsLoop E maxD V Q'
    else bfsLoop E maxD (V ++ [p])
      (Q' ++ (neighborsOf E p).map (fun t => (t, d + 1)))
termination_by bfsMeasure E V Q
decreasing_by
  · exact bfs_dec_skip E V p d Q'
  · exact bfs_dec_visit E V p d Q' (fun hc => h (Or.inl hc))

/-- `getDependencies` of `graph.ts`: BFS over `edges` from `filePath`,
then remove the starting file. -/
def getDependencies (filePath : String) (graph : DependencyGraph)
    (maxDepth : Option Nat := none) : List String :=
  (bfsLoop graph.edges maxDepth [] [(filePath, 0)]).erase filePath

/-- `getDependents` of `graph.ts`: identical BFS over `reverseEdges`. -/
def getDependents (filePath : String) (graph : DependencyGraph)
    (maxDepth : Option Nat := none) : List String :=
  (bfsLoop graph.reverseEdges maxDepth [] [(filePath, 0)]).erase filePath

/-- `computeImpactedClosure` of `graph.ts` (`maxDepth` defaults to 3). -/
def computeImpactedClosure (changedFiles : List String)
    (graph : DependencyGraph) (maxDepth : Option Nat := some 3) : List String :=
  changedFiles.foldl
    (fun impacted file =>
      (getDependents file graph maxDepth).foldl setAdd impacted)
    (changedFiles.foldl setAdd [])

/-! ## BFS correctness: level decomposition -/

/-- Hop paths of a given length along an adjacency map. -/
inductive PathN (E : List (String × List String)) : String → String → Nat → Prop
  | refl (a : String) : PathN E a a 0
  | step {a b c : String} {n : Nat} (hab : b ∈ neighborsOf E a)
      (h : PathN E b c n) : PathN E a c (n + 1)

theorem pathN_zero {E : List (String × List String)} {a b : String}
    (h : PathN E a b 0) : a = b := by
  cases h
  rfl

theorem pathN_succ {E : List (String × List String)} {a c : String} {n : Nat}
    (h : PathN E a c (n + 1)) :
    ∃ b, b ∈ neighborsOf E a ∧ PathN E b c n := by
  cases h with
  | step hab hbc => exact ⟨_, hab, hbc⟩

theorem pathN_append_edge {E : List (String × List String)} {a b : String}
    {n : Nat} (h : PathN E a b n) :
    ∀ {c : String}, c ∈ neighborsOf E b → PathN E a c (n + 1) := by
  induction h with
  | refl a =>
    intro c hc
    exact PathN.step hc (PathN.refl c)
  | step hab hbc ih =>
    intro c hc
    exact PathN.step hab (ih hc)

theorem pathN_snoc {E : List (String × List String)} :
    ∀ (n : Nat) (a c : String), PathN E a c (n + 1) →
      ∃ b, PathN E a b n ∧ c ∈ neighborsOf E b := by
  intro n
  induction n with
  | zero =>
    intro a c h
    obtain ⟨b, hab, hbc⟩ := pathN_succ h
    have : b = c := pathN_zero hbc
    subst this
    exact ⟨a, PathN.refl a, hab⟩
  | succ n ih =>
    intro a c h
    obtain ⟨b, hab, hbc⟩ := pathN_succ h
    obtain ⟨b', hb', hcb'⟩ := ih b c hbc
    exact ⟨b', PathN.step hab hb', hcb'⟩

/-- Processing a single dequeued frontier element at the current depth:
the visited list and the list of raw pushes it produces. -/
def stepVisit (E : List (String × List String))
    (s : List String × List String) (p : String) : List String × List String :=
  if p ∈ s.1 then s else (s.1 ++ [p], s.2 ++ neighborsOf E p)

/-- Processing a whole frontier (left to right, as the FIFO queue does). -/
def runLevel (E : List (String × List String))
    (s : List String × List String) (F : List String) :
    List String × List String :=
  F.foldl (stepVisit E) s

/-- The `(visited, frontier)` state before processing depth level `d`. -/
def levelState (E : List (String × List String)) (start : String) :
    Nat → List String × List String
  | 0 => ([], [start])
  | d + 1 =>
    runLevel E ((levelState E start d).1, []) (levelState E start d).2

/-- Structure of one level pass: visited grows by the fresh frontier
elements (in first-occurrence order) and the pushes are exactly their
neighbor lists. -/
theorem runLevel_spec (E : List (String × List String)) :
    ∀ (F V B : List String), ∃ N P,
      runLevel E (V, B) F = (V ++ N, B ++ P) ∧
      N.Nodup ∧
      (∀ x ∈ N, x ∈ F ∧ x ∉ V) ∧
      (∀ x ∈ F, x ∈ V ∨ x ∈ N) ∧
      (∀ y ∈ P, ∃ x ∈ N, y ∈ neighborsOf E x) ∧
      (∀ x ∈ N, ∀ y ∈ neighborsOf E x, y ∈ P) := by
  intro F
  induction F with
  | nil =>
    intro V B
    exact ⟨[], [], by simp [runLevel], by simp, by simp, by simp, by simp, by simp⟩
  | cons p F' ih =>
    intro V B
    by_cases hp : p ∈ V
    · have hstep : stepVisit E (V, B) p = (V, B) := by
        simp [stepVisit, hp]
      obtain ⟨N, P, heq, hnd, hNin, hFin, hPin, hNP⟩ := ih V B
      refine ⟨N, P, ?_, hnd, ?_, ?_, hPin, hNP⟩
      · rw [runLevel, List.foldl_cons, hstep]
        exact heq
      · exact fun x hx => ⟨List.mem_cons_of_mem _ (hNin x hx).1, (hNin x hx).2⟩
      · intro x hx
        rcases List.mem_cons.mp hx with rfl | hx'
        · exact Or.inl hp
        · exact hFin x hx'
    · have hstep : stepVisit E (V, B) p = (V ++ [p], B ++ neighborsOf E p) := by
        simp [stepVisit, hp]
      obtain ⟨N', P', heq, hnd, hNin, hFin, hPin, hNP⟩ :=
        ih (V ++ [p]) (B ++ neighborsOf E p)
      refine ⟨p :: N', neighborsOf E p ++ P', ?_, ?_, ?_, ?_, ?_, ?_⟩
      · rw [runLevel, List.foldl_cons, hstep]
        rw [runLevel] at heq
        rw [heq]
        simp
      · refine List.nodup_cons.mpr ⟨?_, hnd⟩
        intro hc
        exact (hNin p hc).2 (by simp)
      · intro x hx
        rcases List.mem_cons.mp hx with rfl | hx'
        · exact ⟨List.mem_cons_self _ _, hp⟩
        · obtain ⟨h1, h2⟩ := hNin x hx'
          exact ⟨List.mem_cons_of_mem _ h1, fun hc => h2 (List.mem_append_left _ hc)⟩
      · intro x hx
        rcases List.mem_cons.mp hx with rfl | hx'
        · exact Or.inr (List.mem_cons_self _ _)
        · rcases hFin x hx' with h1 | h2
          · rcases List.mem_append.mp h1 with h1a | h1b
            · exact Or.inl h1a
            · simp only [List.mem_singleton] at h1b
              exact Or.inr (h1b ▸ List.mem_cons_self _ _)
          · exact Or.inr (List.mem_cons_of_mem _ h2)
      · intro y hy
        rcases List.mem_append.mp hy with h1 | h2
        · exact ⟨p, List.mem_cons_self _ _, h1⟩
        · obtain ⟨x, hx, hyx⟩ := hPin y h2
          exact ⟨x, List.mem_cons_of_mem _ hx, hyx⟩
      · intro x hx y hy
        rcases List.mem_cons.mp hx with rfl | hx'
        · exact List.mem_append_left _ hy
        · exact List.mem_append_right _ (hNP x hx' y hy)

/-- A queue whose every entry is beyond the depth bound is drained without
visiting anything. -/
theorem bfsLoop_all_deep (E : List (String × List String)) (maxD : Option Nat) :
    ∀ (Q : List (String × Nat)) (V : List String),
      (∀ e ∈ Q, depthGt e.2 maxD = true) → bfsLoop E maxD V Q = V := by
  intro Q
  induction Q with
  | nil => intro V _; rw [bfsLoop]
  | cons e Q' ih =>
    intro V hdeep
    obtain ⟨p, d⟩ := e
    rw [bfsLoop]
    rw [dif_pos (Or.inr (hdeep (p, d) (List.mem_cons_self _ _)))]
    exact ih V (fun e he => hdeep e (List.mem_cons_of_mem _ he))

/-- Level decomposition of the FIFO loop: a queue consisting of a
depth-`d` block followed by a depth-`d+1` block is processed exactly as
`runLevel` says, leaving a pure depth-`d+1` queue. -/
theorem bfsLoop_level (E : List (String × List String)) (maxD : Option Nat)
    (d : Nat) (hd : depthGt d maxD = false) :
    ∀ (F V B : List String),
      bfsLoop E maxD V
          (F.map (fun p => (p, d)) ++ B.map (fun p => (p, d + 1))) =
        bfsLoop E maxD (runLevel E (V, B) F).1
          ((runLevel E (V, B) F).2.map (fun p => (p, d + 1))) := by
  intro F
  induction F with
  | nil =>
    intro V B
    simp [runLevel]
  | cons p F' ih =>
    intro V B
    simp only [List.map_cons, List.cons_append]
    rw [bfsLoop]
    by_cases hp : p ∈ V
    · rw [dif_pos (Or.inl hp)]
      have hstep : stepVisit E (V, B) p = (V, B) := by simp [stepVisit, hp]
      rw [runLevel, List.foldl_cons, hstep]
      exact ih V B
    · rw [dif_neg (by
        rintro (hc | hc)
        · exact hp hc
        · rw [hd] at hc
          exact Bool.false_ne_true hc)]
      have hstep : stepVisit E (V, B) p = (V ++ [p], B ++ neighborsOf E p) := by
        simp [stepVisit, hp]
      rw [runLevel, List.foldl_cons, hstep]
      have hq : (F'.map (fun p => (p, d)) ++ B.map (fun p => (p, d + 1))) ++
          (neighborsOf E p).map (fun t => (t, d + 1)) =
          F'.map (fun p => (p, d)) ++
            (B ++ neighborsOf E p).map (fun p => (p, d + 1)) := by
        rw [List.append_assoc, List.map_append]
      rw [hq]
      exact ih (V ++ [p]) (B ++ neighborsOf E p)

/-! ## BFS correctness: level-state invariants -/

def visitedAt (E : List (String × List String)) (start : String) (d : Nat) :
    List String :=
  (levelState E start d).1

def frontierAt (E : List (String × List String)) (start : String) (d : Nat) :
    List String :=
  (levelState E start d).2

theorem levelState_succ (E : List (String × List String)) (start : String)
    (d : Nat) :
    levelState E start (d + 1) =
      runLevel E (visitedAt E start d, []) (frontierAt E start d) := rfl

/-- The structure of one level transition, specialized to the level states. -/
theorem levelState_spec (E : List (String × List String)) (start : String)
    (d : Nat) : ∃ N,
      visitedAt E start (d + 1) = visitedAt E start d ++ N ∧
      N.Nodup ∧
      (∀ x ∈ N, x ∈ frontierAt E start d ∧ x ∉ visitedAt E start d) ∧
      (∀ x ∈ frontierAt E start d, x ∈ visitedAt E start d ∨ x ∈ N) ∧
      (∀ y ∈ frontierAt E start (d + 1), ∃ x ∈ N, y ∈ neighborsOf E x) ∧
      (∀ x ∈ N, ∀ y ∈ neighborsOf E x, y ∈ frontierAt E start (d + 1)) := by
  obtain ⟨N, P, heq, hnd, hNin, hFin, hPin, hNP⟩ :=
    runLevel_spec E (frontierAt E start d) (visitedAt E start d) []
  refine ⟨N, ?_, hnd, hNin, hFin, ?_, ?_⟩
  · unfold visitedAt
    rw [levelState_succ, heq]
    rfl
  · intro y hy
    apply hPin
    unfold frontierAt at hy
    rw [levelState_succ, heq] at hy
    simpa using hy
  · intro x hx y hy
    unfold frontierAt
    rw [levelState_succ, heq]
    simpa using hNP x hx y hy

theorem visitedAt_zero (E : List (String × List String)) (start : String) :
    visitedAt E start 0 = [] := rfl

theorem frontierAt_zero (E : List (String × List String)) (start : String) :
    frontierAt E start 0 = [start] := rfl

theorem visitedAt_mono_succ (E : List (String × List String)) (start : String)
    (d : Nat) : visitedAt E start d ⊆ visitedAt E start (d + 1) := by
  obtain ⟨N, heq, -⟩ := levelState_spec E start d
  rw [heq]
  exact List.subset_append_left _ _

theorem visitedAt_mono (E : List (String × List String)) (start : String)
    {d d' : Nat} (h : d ≤ d') : visitedAt E start d ⊆ visitedAt E start d' := by
  induction d' with
  | zero =>
    have : d = 0 := Nat.le_zero.mp h
    subst this
    exact fun x hx => hx
  | succ d' ih =>
    rcases Nat.lt_or_ge d (d' + 1) with hlt | hge
    · exact fun x hx =>
        visitedAt_mono_succ E start d' (ih (Nat.lt_succ_iff.mp hlt) hx)
    · have : d = d' + 1 := Nat.le_antisymm h hge
      subst this
      exact fun x hx => hx

theorem frontierAt_subset_next (E : List (String × List String))
    (start : String) (d : Nat) :
    frontierAt E start d ⊆ visitedAt E start (d + 1) := by
  obtain ⟨N, heq, _, _, hFin, -⟩ := levelState_spec E start d
  intro x hx
  rw [heq]
  rcases hFin x hx with h1 | h2
  · exact List.mem_append_left _ h1
  · exact List.mem_append_right _ h2

theorem visitedAt_nodup (E : List (String × List String)) (start : String) :
    ∀ d, (visitedAt E start d).Nodup := by
  intro d
  induction d with
  | zero => rw [visitedAt_zero]; exact List.nodup_nil
  | succ d ih =>
    obtain ⟨N, heq, hnd, hNin, -⟩ := levelState_spec E start d
    rw [heq, List.nodup_append]
    refine ⟨ih, hnd, ?_⟩
    intro a ha hb
    exact (hNin a hb).2 ha

theorem neighbors_closure (E : List (String × List String)) (start : String) :
    ∀ d, ∀ u ∈ visitedAt E start (d + 1), ∀ y ∈ neighborsOf E u,
      y ∈ visitedAt E start (d + 2) := by
  intro d
  induction d with
  | zero =>
    intro u hu y hy
    obtain ⟨N, heq, _, hNin, _, _, hNP⟩ := levelState_spec E start 0
    rw [visitedAt_zero] at heq
    rw [heq] at hu
    simp only [List.nil_append] at hu
    exact frontierAt_subset_next E start 1 (hNP u hu y hy)
  | succ d ih =>
    intro u hu y hy
    obtain ⟨N, heq, _, hNin, _, _, hNP⟩ := levelState_spec E start (d + 1)
    rw [heq] at hu
    rcases List.mem_append.mp hu with h1 | h2
    · exact visitedAt_mono_succ E start (d + 2) (ih u h1 y hy)
    · exact frontierAt_subset_next E start (d + 2) (hNP u h2 y hy)

/-- Everything visited or in the frontier is reachable within the level
index. -/
theorem levelState_sound (E : List (String × List String)) (start : String) :
    ∀ d, (∀ v ∈ visitedAt E start d, ∃ n, PathN E start v n ∧ n + 1 ≤ d) ∧
      (∀ v ∈ frontierAt E start d, ∃ n, PathN E start v n ∧ n ≤ d) := by
  intro d
  induction d with
  | zero =>
    constructor
    · intro v hv
      rw [visitedAt_zero] at hv
      simp at hv
    · intro v hv
      rw [frontierAt_zero] at hv
      simp only [List.mem_singleton] at hv
      rw [hv]
      exact ⟨0, PathN.refl start, Nat.le_refl 0⟩
  | succ d ih =>
    obtain ⟨ihV, ihF⟩ := ih
    obtain ⟨N, heq, _, hNin, _, hPin, -⟩ := levelState_spec E start d
    have hN : ∀ v ∈ N, ∃ n, PathN E start v n ∧ n ≤ d := by
      intro v hv
      exact ihF v (hNin v hv).1
    constructor
    · intro v hv
      rw [heq] at hv
      rcases List.mem_append.mp hv with h1 | h2
      · obtain ⟨n, hp, hn⟩ := ihV v h1
        exact ⟨n, hp, Nat.le_succ_of_le hn⟩
      · obtain ⟨n, hp, hn⟩ := hN v h2
        exact ⟨n, hp, Nat.add_le_add_right hn 1⟩
    · intro v hv
      obtain ⟨x, hx, hvx⟩ := hPin v hv
      obtain ⟨n, hp, hn⟩ := hN x hx
      exact ⟨n + 1, pathN_append_edge hp hvx, by omega⟩

/-- Completeness: everything reachable within `n` hops is visited by level
`n + 1`. -/
theorem levelState_complete (E : List (String × List String)) (start : String) :
    ∀ (n : Nat) (v : String), PathN E start v n →
      ∀ d, n ≤ d → v ∈ visitedAt E start (d + 1) := by
  intro n
  induction n with
  | zero =>
    intro v hp d _
    have : start = v := pathN_zero hp
    subst this
    have h1 : start ∈ visitedAt E start 1 :=
      frontierAt_subset_next E start 0 (by rw [frontierAt_zero]; simp)
    exact visitedAt_mono E start (Nat.succ_le_succ (Nat.zero_le d)) h1
  | succ n ih =>
    intro v hp d hle
    obtain ⟨u, hu, hvu⟩ := pathN_snoc n start v hp
    have hu' : u ∈ visitedAt E start (n + 1) := ih u hu n (Nat.le_refl n)
    have hv' : v ∈ visitedAt E start (n + 2) :=
      neighbors_closure E start n u hu' v hvu
    exact visitedAt_mono E start (by omega) hv'

theorem visitedAt_subset_univ (E : List (String × List String))
    (start : String) :
    ∀ d, visitedAt E start d ⊆ start :: univList E ∧
      frontierAt E start d ⊆ start :: univList E := by
  intro d
  induction d with
  | zero =>
    refine ⟨by rw [visitedAt_zero]; simp, ?_⟩
    rw [frontierAt_zero]
    intro x hx
    simp only [List.mem_singleton] at hx
    rw [hx]
    exact List.mem_cons_self _ _
  | succ d ih =>
    obtain ⟨ihV, ihF⟩ := ih
    obtain ⟨N, heq, _, hNin, _, hPin, -⟩ := levelState_spec E start d
    constructor
    · rw [heq]
      intro x hx
      rcases List.mem_append.mp hx with h1 | h2
      · exact ihV h1
      · exact ihF (hNin x h2).1
    · intro y hy
      obtain ⟨x, _, hyx⟩ := hPin y hy
      exact List.mem_cons_of_mem _ (mem_univList_of_mem_neighborsOf E x y hyx)

theorem frontier_growth (E : List (String × List String)) (start : String)
    (d : Nat) (h : frontierAt E start (d + 1) ≠ []) :
    (visitedAt E start d).length < (visitedAt E start (d + 1)).length := by
  obtain ⟨N, heq, _, _, _, hPin, -⟩ := levelState_spec E start d
  have hN : N ≠ [] := by
    intro hc
    rcases List.exists_mem_of_ne_nil _ h with ⟨y, hy⟩
    obtain ⟨x, hx, -⟩ := hPin y hy
    rw [hc] at hx
    simp at hx
  rw [heq, List.length_append]
  have : 0 < N.length := List.length_pos.mpr hN
  omega

theorem exists_empty_frontier (E : List (String × List String))
    (start : String) : ∃ d, frontierAt E start d = [] := by
  by_contra hc
  push_neg at hc
  have hge : ∀ d, d ≤ (visitedAt E start d).length := by
    intro d
    induction d with
    | zero => exact Nat.zero_le _
    | succ d ih =>
      have := frontier_growth E start d (hc (d + 1))
      omega
  have hle : ∀ d, (visitedAt E start d).length ≤ (start :: univList E).length := by
    intro d
    have hsub := (visitedAt_subset_univ E start d).1
    have hnd := visitedAt_nodup E start d
    calc (visitedAt E start d).length = (visitedAt E start d).toFinset.card :=
          (List.toFinset_card_of_nodup hnd).symm
      _ ≤ (start :: univList E).toFinset.card := by
          apply Finset.card_le_card
          intro x hx
          rw [List.mem_toFinset] at hx ⊢
          exact hsub hx
      _ ≤ (start :: univList E).length := List.toFinset_card_le _
  have h1 := hge ((start :: univList E).length + 1)
  have h2 := hle ((start :: univList E).length + 1)
  omega

theorem levelState_stable (E : List (String × List String)) (start : String)
    (d : Nat) (h : frontierAt E start d = []) :
    ∀ k, levelState E start (d + k) = levelState E start d := by
  intro k
  induction k with
  | zero => rfl
  | succ k ih =>
    have : d + (k + 1) = (d + k) + 1 := by omega
    rw [this, levelState_succ, visitedAt, frontierAt, ih]
    have hF : (levelState E start d).2 = [] := h
    rw [hF]
    rw [runLevel, List.foldl_nil]
    have hV : levelState E start d = ((levelState E start d).1, []) := by
      rw [← hF]
    rw [← hV]

/-- Running the loop from the initial queue reaches any level state whose
levels are all within the depth bound. -/
theorem bfsLoop_run_to_level (E : List (String × List String))
    (maxD : Option Nat) (start : String) :
    ∀ d, (∀ j, j < d → depthGt j maxD = false) →
      bfsLoop E maxD [] [(start, 0)] =
        bfsLoop E maxD (visitedAt E start d)
          ((frontierAt E start d).map (fun p => (p, d))) := by
  intro d
  induction d with
  | zero => intro _; rfl
  | succ d ih =>
    intro hj
    rw [ih (fun j hjd => hj j (Nat.lt_succ_of_lt hjd))]
    have hlevel := bfsLoop_level E maxD d (hj d (Nat.lt_succ_self d))
      (frontierAt E start d) (visitedAt E start d) []
    rw [List.map_nil, List.append_nil] at hlevel
    rw [hlevel]
    rfl

/-- Membership of the raw visited result, bounded case. -/
theorem bfsLoop_mem_some (E : List (String × List String)) (start : String)
    (m : Nat) (v : String) :
    v ∈ bfsLoop E (some m) [] [(start, 0)] ↔
      ∃ n, PathN E start v n ∧ n ≤ m := by
  have hrun := bfsLoop_run_to_level E (some m) start (m + 1)
    (fun j hj => by
      unfold depthGt
      simp only [decide_eq_false_iff_not]
      omega)
  have hdeep : bfsLoop E (some m) (visitedAt E start (m + 1))
      ((frontierAt E start (m + 1)).map (fun p => (p, m + 1))) =
      visitedAt E start (m + 1) := by
    apply bfsLoop_all_deep
    intro e he
    rw [List.mem_map] at he
    obtain ⟨p, -, rfl⟩ := he
    unfold depthGt
    simp
  rw [hrun, hdeep]
  constructor
  · intro hv
    obtain ⟨n, hp, hn⟩ := (levelState_sound E start (m + 1)).1 v hv
    exact ⟨n, hp, by omega⟩
  · rintro ⟨n, hp, hn⟩
    exact levelState_complete E start n v hp m hn

/-- Membership of the raw visited result, unbounded (`Infinity`) case. -/
theorem bfsLoop_mem_none (E : List (String × List String)) (start : String)
    (v : String) :
    v ∈ bfsLoop E none [] [(start, 0)] ↔ ∃ n, PathN E start v n := by
  obtain ⟨d0, hd0⟩ := exists_empty_frontier E start
  have hrun := bfsLoop_run_to_level E none start d0 (fun j _ => rfl)
  rw [hd0] at hrun
  rw [List.map_nil] at hrun
  rw [bfsLoop] at hrun
  rw [hrun]
  constructor
  · intro hv
    obtain ⟨n, hp, -⟩ := (levelState_sound E start d0).1 v hv
    exact ⟨n, hp⟩
  · rintro ⟨n, hp⟩
    have hv' := levelState_complete E start n v hp n (Nat.le_refl n)
    rcases Nat.le_total (n + 1) d0 with hle | hge
    · exact visitedAt_mono E start hle hv'
    · have : levelState E start (n + 1) = levelState E start d0 := by
        have := levelState_stable E start d0 hd0 (n + 1 - d0)
        rw [show d0 + (n + 1 - d0) = n + 1 by omega] at this
        exact this
      rw [visitedAt, this] at hv'
      exact hv'

/-- The raw visited result contains no duplicates. -/
theorem bfsLoop_nodup (E : List (String × List String)) (maxD : Option Nat)
    (start : String) : (bfsLoop E maxD [] [(start, 0)]).Nodup := by
  cases maxD with
  | some m =>
    have hrun := bfsLoop_run_to_level E (some m) start (m + 1)
      (fun j hj => by
        unfold depthGt
        simp only [decide_eq_false_iff_not]
        omega)
    have hdeep : bfsLoop E (some m) (visitedAt E start (m + 1))
        ((frontierAt E start (m + 1)).map (fun p => (p, m + 1))) =
        visitedAt E start (m + 1) := by
      apply bfsLoop_all_deep
      intro e he
      rw [List.mem_map] at he
      obtain ⟨p, -, rfl⟩ := he
      unfold depthGt
      simp
    rw [hrun, hdeep]
    exact visitedAt_nodup E start (m + 1)
  | none =>
    obtain ⟨d0, hd0⟩ := exists_empty_frontier E start
    have hrun := bfsLoop_run_to_level E none start d0 (fun j _ => rfl)
    rw [hd0] at hrun
    rw [List.map_nil] at hrun
    rw [bfsLoop] at hrun
    rw [hrun]
    exact visitedAt_nodup E start d0

/-- `n ≤ maxDepth` for a possibly-infinite JS depth bound. -/
def depthLe (n : Nat) (maxD : Option Nat) : Prop :=
  match maxD with
  | some m => n ≤ m
  | none => True

instance (n : Nat) (maxD : Option Nat) : Decidable (depthLe n maxD) := by
  unfold depthLe
  cases maxD with
  | some m => exact inferInstanceAs (Decidable (n ≤ m))
  | none => exact inferInstanceAs (Decidable True)

theorem bfsLoop_mem_iff (E : List (String × List String)) (maxD : Option Nat)
    (start v : String) :
    v ∈ bfsLoop E maxD [] [(start, 0)] ↔
      ∃ n, PathN E start v n ∧ depthLe n maxD := by
  cases maxD with
  | some m => exact bfsLoop_mem_some E start m v
  | none =>
    rw [bfsLoop_mem_none E start v]
    unfold depthLe
    simp

/-- `n` is the least number of forward hops from `a` to `b`. -/
def isShortestDistance (E : List (String × List String)) (a b : String)
    (n : Nat) : Prop :=
  PathN E a b n ∧ ∀ k, PathN E a b k → n ≤ k

/-- "Shortest hop distance between 1 and maxDepth" coincides with "reachable
within maxDepth and distinct from the start". -/
theorem shortest_between_iff (E : List (String × List String))
    (start v : String) (maxD : Option Nat) :
    (∃ n, isShortestDistance E start v n ∧ 1 ≤ n ∧ depthLe n maxD) ↔
      (v ≠ start ∧ ∃ n, PathN E start v n ∧ depthLe n maxD) := by
  constructor
  · rintro ⟨n, ⟨hp, hmin⟩, h1, hle⟩
    refine ⟨?_, n, hp, hle⟩
    rintro rfl
    have := hmin 0 (PathN.refl v)
    omega
  · rintro ⟨hne, n, hp, hle⟩
    obtain ⟨s, hs, hmin'⟩ := (wellFounded_lt (α := Nat)).has_min
      {k | PathN E start v k} ⟨n, hp⟩
    have hmin : ∀ k, PathN E start v k → s ≤ k := by
      intro k hk
      by_contra hc
      exact hmin' k hk (by omega)
    refine ⟨s, ⟨hs, hmin⟩, ?_, ?_⟩
    · rcases Nat.eq_zero_or_pos s with rfl | hpos
      · exact absurd (pathN_zero hs).symm hne
      · exact hpos
    · have hsn : s ≤ n := hmin n hp
      unfold depthLe at hle ⊢
      cases maxD with
      | some m => omega
      | none => trivial

theorem mem_bfs_erase_iff (E : List (String × List String)) (maxD : Option Nat)
    (start v : String) :
    v ∈ (bfsLoop E maxD [] [(start, 0)]).erase start ↔
      v ≠ start ∧ v ∈ bfsLoop E maxD [] [(start, 0)] :=
  List.Nodup.mem_erase_iff (bfsLoop_nodup E maxD start)

/-- Full characterization of the BFS result sets of `getDependencies` and
`getDependents`. -/
theorem traversal_mem_iff (E : List (String × List String)) (maxD : Option Nat)
    (start v : String) :
    v ∈ (bfsLoop E maxD [] [(start, 0)]).erase start ↔
      ∃ n, isShortestDistance E start v n ∧ 1 ≤ n ∧ depthLe n maxD := by
  rw [mem_bfs_erase_iff, bfsLoop_mem_iff, shortest_between_iff]

/-! ## Characterization of `buildDependencyGraph` -/

/-- The scanned file set: one key per module. -/
def nodeKeys (modules : List ModuleInfo) : List String :=
  modules.map ModuleInfo.filePath

theorem isSome_mapGet_mapUpdate {α : Type} (m : List (String × α)) (k : String)
    (f : α → α) (k' : String) :
    (mapGet (mapUpdate m k f) k').isSome = (mapGet m k').isSome := by
  by_cases h : k' = k
  · subst h
    rw [mapGet_mapUpdate_self]
    cases mapGet m k' <;> rfl
  · rw [mapGet_mapUpdate_ne _ _ _ _ h]

theorem mem_nodeKeys_cons (m : ModuleInfo) (ms : List ModuleInfo) (k : String) :
    k ∈ nodeKeys (m :: ms) ↔ k = m.filePath ∨ k ∈ nodeKeys ms := by
  unfold nodeKeys
  rw [List.map_cons, List.mem_cons]

theorem createNodes_fold_edges (root : String) :
    ∀ (ms : List ModuleInfo) (g : DependencyGraph) (k : String),
      mapGet (ms.foldl (fun g m =>
        { nodes := mapSet g.nodes m.filePath
            ⟨m.filePath, relativeJS root m.filePath, [], []⟩,
          edges := mapSet g.edges m.filePath [],
          reverseEdges := mapSet g.reverseEdges m.filePath [] }) g).edges k =
      if k ∈ nodeKeys ms then some [] else mapGet g.edges k := by
  intro ms
  induction ms with
  | nil => intro g k; simp [nodeKeys]
  | cons m ms ih =>
    intro g k
    rw [List.foldl_cons, ih]
    by_cases hk : k ∈ nodeKeys ms
    · have hk' : k ∈ nodeKeys (m :: ms) := (mem_nodeKeys_cons m ms k).mpr (Or.inr hk)
      simp only [hk, hk', if_true]
    · by_cases hm : k = m.filePath
      · have hk' : k ∈ nodeKeys (m :: ms) := (mem_nodeKeys_cons m ms k).mpr (Or.inl hm)
        simp only [hk, hk', if_true, if_false]
        subst hm
        exact mapGet_mapSet_self _ _ _
      · have hk' : k ∉ nodeKeys (m :: ms) := by
          rw [mem_nodeKeys_cons]
          rintro (h | h)
          · exact hm h
          · exact hk h
        simp only [hk, hk', if_false]
        exact mapGet_mapSet_ne _ _ _ _ hm

theorem createNodes_fold_rev (root : String) :
    ∀ (ms : List ModuleInfo) (g : DependencyGraph) (k : String),
      mapGet (ms.foldl (fun g m =>
        { nodes := mapSet g.nodes m.filePath
            ⟨m.filePath, relativeJS root m.filePath, [], []⟩,
          edges := mapSet g.edges m.filePath [],
          reverseEdges := mapSet g.reverseEdges m.filePath [] }) g).reverseEdges k =
      if k ∈ nodeKeys ms then some [] else mapGet g.reverseEdges k := by
  intro ms
  induction ms with
  | nil => intro g k; simp [nodeKeys]
  | cons m ms ih =>
    intro g k
    rw [List.foldl_cons, ih]
    by_cases hk : k ∈ nodeKeys ms
    · have hk' : k ∈ nodeKeys (m :: ms) := (mem_nodeKeys_cons m ms k).mpr (Or.inr hk)
      simp only [hk, hk', if_true]
    · by_cases hm : k = m.filePath
      · have hk' : k ∈ nodeKeys (m :: ms) := (mem_nodeKeys_cons m ms k).mpr (Or.inl hm)
        simp only [hk, hk', if_true, if_false]
        subst hm
        exact mapGet_mapSet_self _ _ _
      · have hk' : k ∉ nodeKeys (m :: ms) := by
          rw [mem_nodeKeys_cons]
          rintro (h | h)
          · exact hm h
          · exact hk h
        simp only [hk, hk', if_false]
        exact mapGet_mapSet_ne _ _ _ _ hm

theorem createNodes_fold_nodes (root : String) :
    ∀ (ms : List ModuleInfo) (g : DependencyGraph) (k : String),
      (mapGet (ms.foldl (fun g m =>
        { nodes := mapSet g.nodes m.filePath
            ⟨m.filePath, relativeJS root m.filePath, [], []⟩,
          edges := mapSet g.edges m.filePath [],
          reverseEdges := mapSet g.reverseEdges m.filePath [] }) g).nodes k).isSome =
      (decide (k ∈ nodeKeys ms) || (mapGet g.nodes k).isSome) := by
  intro ms
  induction ms with
  | nil => intro g k; simp [nodeKeys]
  | cons m ms ih =>
    intro g k
    rw [List.foldl_cons, ih]
    by_cases hm : k = m.filePath
    · have hk' : k ∈ nodeKeys (m :: ms) := (mem_nodeKeys_cons m ms k).mpr (Or.inl hm)
      subst hm
      rw [mapGet_mapSet_self]
      simp [hk']
    · rw [mapGet_mapSet_ne _ _ _ _ hm]
      by_cases hk : k ∈ nodeKeys ms
      · have hk' : k ∈ nodeKeys (m :: ms) := (mem_nodeKeys_cons m ms k).mpr (Or.inr hk)
        simp [hk, hk']
      · have hk' : k ∉ nodeKeys (m :: ms) := by
          rw [mem_nodeKeys_cons]
          rintro (h | h)
          · exact hm h
          · exact hk h
        simp [hk, hk']

theorem createNodes_edges_get (modules : List ModuleInfo) (root : String)
    (k : String) :
    mapGet (createNodes modules root).edges k =
      if k ∈ nodeKeys modules then some [] else none := by
  unfold createNodes
  rw [createNodes_fold_edges root modules ⟨[], [], []⟩ k]
  rfl

theorem createNodes_rev_get (modules : List ModuleInfo) (root : String)
    (k : String) :
    mapGet (createNodes modules root).reverseEdges k =
      if k ∈ nodeKeys modules then some [] else none := by
  unfold createNodes
  rw [createNodes_fold_rev root modules ⟨[], [], []⟩ k]
  rfl

theorem createNodes_nodes_isSome (modules : List ModuleInfo) (root : String)
    (k : String) :
    (mapGet (createNodes modules root).nodes k).isSome =
      decide (k ∈ nodeKeys modules) := by
  unfold createNodes
  rw [createNodes_fold_nodes root modules ⟨[], [], []⟩ k]
  simp [mapGet]

/-- `addEdgeForImport` never adds or removes map keys. -/
theorem addEdge_isSome (modules : List ModuleInfo) (g : DependencyGraph)
    (fp : String) (imp : ImportInfo) (k : String) :
    ((mapGet (addEdgeForImport modules g fp imp).nodes k).isSome =
      (mapGet g.nodes k).isSome) ∧
    ((mapGet (addEdgeForImport modules g fp imp).edges k).isSome =
      (mapGet g.edges k).isSome) ∧
    ((mapGet (addEdgeForImport modules g fp imp).reverseEdges k).isSome =
      (mapGet g.reverseEdges k).isSome) := by
  unfold addEdgeForImport
  cases h : findModuleByImport imp.source modules with
  | none => exact ⟨rfl, rfl, rfl⟩
  | some t =>
    dsimp only
    by_cases hg : t ≠ "" ∧ (mapGet g.nodes t).isSome
    · rw [if_pos hg]
      refine ⟨?_, ?_, ?_⟩ <;> simp [isSome_mapGet_mapUpdate]
    · rw [if_neg hg]
      exact ⟨rfl, rfl, rfl⟩

theorem importFold_isSome (modules : List ModuleInfo) (fp : String) :
    ∀ (imps : List ImportInfo) (g : DependencyGraph) (k : String),
    ((mapGet ((imps.foldl (fun g imp => addEdgeForImport modules g fp imp) g)).nodes k).isSome =
      (mapGet g.nodes k).isSome) ∧
    ((mapGet ((imps.foldl (fun g imp => addEdgeForImport modules g fp imp) g)).edges k).isSome =
      (mapGet g.edges k).isSome) ∧
    ((mapGet ((imps.foldl (fun g imp => addEdgeForImport modules g fp imp) g)).reverseEdges k).isSome =
      (mapGet g.reverseEdges k).isSome) := by
  intro imps
  induction imps with
  | nil => intro g k; exact ⟨rfl, rfl, rfl⟩
  | cons imp imps ih =>
    intro g k
    rw [List.foldl_cons]
    obtain ⟨h1, h2, h3⟩ := ih (addEdgeForImport modules g fp imp) k
    obtain ⟨a1, a2, a3⟩ := addEdge_isSome modules g fp imp k
    exact ⟨h1.trans a1, h2.trans a2, h3.trans a3⟩

theorem processModule_isSome (modules : List ModuleInfo) (m : ModuleInfo)
    (g : DependencyGraph) (k : String) :
    ((mapGet (processModule modules g m).nodes k).isSome =
      (mapGet g.nodes k).isSome) ∧
    ((mapGet (processModule modules g m).edges k).isSome =
      (mapGet g.edges k).isSome) ∧
    ((mapGet (processModule modules g m).reverseEdges k).isSome =
      (mapGet g.reverseEdges k).isSome) := by
  unfold processModule
  by_cases h : (mapGet g.nodes m.filePath).isSome = true
  · rw [if_pos h]
    exact importFold_isSome modules m.filePath m.imports g k
  · rw [if_neg h]
    exact ⟨rfl, rfl, rfl⟩

theorem modFold_isSome (modules : List ModuleInfo) :
    ∀ (ms : List ModuleInfo) (g : DependencyGraph) (k : String),
    ((mapGet (ms.foldl (processModule modules) g).nodes k).isSome =
      (mapGet g.nodes k).isSome) ∧
    ((mapGet (ms.foldl (processModule modules) g).edges k).isSome =
      (mapGet g.edges k).isSome) ∧
    ((mapGet (ms.foldl (processModule modules) g).reverseEdges k).isSome =
      (mapGet g.reverseEdges k).isSome) := by
  intro ms
  induction ms with
  | nil => intro g k; exact ⟨rfl, rfl, rfl⟩
  | cons m ms ih =>
    intro g k
    rw [List.foldl_cons]
    obtain ⟨h1, h2, h3⟩ := ih (processModule modules g m) k
    obtain ⟨a1, a2, a3⟩ := processModule_isSome modules m g k
    exact ⟨h1.trans a1, h2.trans a2, h3.trans a3⟩

theorem build_nodes_isSome (modules : List ModuleInfo) (root : String)
    (k : String) :
    (mapGet (buildDependencyGraph modules root).nodes k).isSome =
      decide (k ∈ nodeKeys modules) := by
  unfold buildDependencyGraph
  rw [(modFold_isSome modules modules (createNodes modules root) k).1]
  exact createNodes_nodes_isSome modules root k

theorem build_edges_isSome (modules : List ModuleInfo) (root : String)
    (k : String) :
    (mapGet (buildDependencyGraph modules root).edges k).isSome =
      decide (k ∈ nodeKeys modules) := by
  unfold buildDependencyGraph
  rw [(modFold_isSome modules modules (createNodes modules root) k).2.1]
  rw [createNodes_edges_get]
  by_cases h : k ∈ nodeKeys modules <;> simp [h]

theorem build_rev_isSome (modules : List ModuleInfo) (root : String)
    (k : String) :
    (mapGet (buildDependencyGraph modules root).reverseEdges k).isSome =
      decide (k ∈ nodeKeys modules) := by
  unfold buildDependencyGraph
  rw [(modFold_isSome modules modules (createNodes modules root) k).2.2]
  rw [createNodes_rev_get]
  by_cases h : k ∈ nodeKeys modules <;> simp [h]

/-- The edge relation that `buildDependencyGraph` materializes: module `a`
has an import whose `findModuleByImport` resolution is the scanned,
truthy file `b`. -/
def EdgeRel (modules : List ModuleInfo) (a b : String) : Prop :=
  ∃ m ∈ modules, m.filePath = a ∧ ∃ imp ∈ m.imports,
    findModuleByImport imp.source modules = some b ∧ b ≠ "" ∧
      b ∈ nodeKeys modules

/-- `addEdgeForImport` reduced in the resolved-and-admitted case. -/
theorem addEdge_eq_of_found (modules : List ModuleInfo) (g : DependencyGraph)
    (fp : String) (imp : ImportInfo) (t : String)
    (hfind : findModuleByImport imp.source modules = some t)
    (hg : t ≠ "" ∧ (mapGet g.nodes t).isSome) :
    addEdgeForImport modules g fp imp =
      { edges := mapUpdate g.edges fp (fun s => setAdd s t),
        reverseEdges := mapUpdate g.reverseEdges t (fun s => setAdd s fp),
        nodes :=
          mapUpdate
            (mapUpdate g.nodes fp
              (fun n => { n with dependencies := n.dependencies ++ [t] }))
            t (fun n => { n with dependents := n.dependents ++ [fp] }) } := by
  unfold addEdgeForImport
  rw [hfind]
  dsimp only
  rw [if_pos hg]

/-- `addEdgeForImport` reduced in the rejected case. -/
theorem addEdge_eq_of_skipped (modules : List ModuleInfo) (g : DependencyGraph)
    (fp : String) (imp : ImportInfo)
    (h : findModuleByImport imp.source modules = none ∨
      ∃ t, findModuleByImport imp.source modules = some t ∧
        ¬ (t ≠ "" ∧ (mapGet g.nodes t).isSome)) :
    addEdgeForImport modules g fp imp = g := by
  unfold addEdgeForImport
  rcases h with h | ⟨t, hfind, hg⟩
  · rw [h]
  · rw [hfind]
    dsimp only
    rw [if_neg hg]

theorem addEdge_edges_mem (modules : List ModuleInfo) (g : DependencyGraph)
    (fp : String) (imp : ImportInfo) (a b : String)
    (hnodes : ∀ k, (mapGet g.nodes k).isSome = decide (k ∈ nodeKeys modules))
    (hedges : ∀ k, (mapGet g.edges k).isSome = decide (k ∈ nodeKeys modules))
    (hfp : fp ∈ nodeKeys modules) :
    b ∈ (mapGet (addEdgeForImport modules g fp imp).edges a).getD [] ↔
      b ∈ (mapGet g.edges a).getD [] ∨
        (fp = a ∧ findModuleByImport imp.source modules = some b ∧
          b ≠ "" ∧ b ∈ nodeKeys modules) := by
  cases hfind : findModuleByImport imp.source modules with
  | none =>
    rw [addEdge_eq_of_skipped modules g fp imp (Or.inl hfind)]
    constructor
    · exact fun hb => Or.inl hb
    · rintro (hb | ⟨-, hc, -⟩)
      · exact hb
      · exact absurd hc (by simp)
  | some t =>
    by_cases hg : t ≠ "" ∧ (mapGet g.nodes t).isSome
    · rw [addEdge_eq_of_found modules g fp imp t hfind hg]
      have htK : t ∈ nodeKeys modules := by
        have := hnodes t
        rw [hg.2] at this
        exact of_decide_eq_true this.symm
      by_cases ha : fp = a
      · subst ha
        dsimp only
        rw [mapGet_mapUpdate_self]
        obtain ⟨l, hl⟩ : ∃ l, mapGet g.edges fp = some l := by
          have := hedges fp
          rw [decide_eq_true hfp] at this
          exact Option.isSome_iff_exists.mp this
        rw [hl]
        show b ∈ setAdd l t ↔ _
        rw [mem_setAdd]
        simp only [Option.getD_some, Option.some.injEq]
        constructor
        · rintro (hb | rfl)
          · exact Or.inl hb
          · exact Or.inr ⟨trivial, rfl, hg.1, htK⟩
        · rintro (hb | ⟨-, rfl, -, -⟩)
          · exact Or.inl hb
          · exact Or.inr rfl
      · dsimp only
        rw [mapGet_mapUpdate_ne _ _ _ _ (fun hc => ha hc.symm)]
        constructor
        · exact fun hb => Or.inl hb
        · rintro (hb | ⟨hc, -⟩)
          · exact hb
          · exact absurd hc ha
    · rw [addEdge_eq_of_skipped modules g fp imp (Or.inr ⟨t, hfind, hg⟩)]
      constructor
      · exact fun hb => Or.inl hb
      · rintro (hb | ⟨-, hsome, hbne, hbK⟩)
        · exact hb
        · have hbt : t = b := Option.some.inj hsome
          subst hbt
          refine absurd ⟨hbne, ?_⟩ hg
          rw [hnodes t]
          exact decide_eq_true hbK

theorem importFold_edges_mem (modules : List ModuleInfo) (fp : String) :
    ∀ (imps : List ImportInfo) (g : DependencyGraph) (a b : String),
    (∀ k, (mapGet g.nodes k).isSome = decide (k ∈ nodeKeys modules)) →
    (∀ k, (mapGet g.edges k).isSome = decide (k ∈ nodeKeys modules)) →
    fp ∈ nodeKeys modules →
    (b ∈ (mapGet ((imps.foldl (fun g imp => addEdgeForImport modules g fp imp) g)).edges a).getD [] ↔
      b ∈ (mapGet g.edges a).getD [] ∨
        (fp = a ∧ ∃ imp ∈ imps, findModuleByImport imp.source modules = some b ∧
          b ≠ "" ∧ b ∈ nodeKeys modules)) := by
  intro imps
  induction imps with
  | nil =>
    intro g a b _ _ _
    simp
  | cons imp imps ih =>
    intro g a b hnodes hedges hfp
    rw [List.foldl_cons]
    have hnodes' : ∀ k,
        (mapGet (addEdgeForImport modules g fp imp).nodes k).isSome =
          decide (k ∈ nodeKeys modules) := fun k =>
      ((addEdge_isSome modules g fp imp k).1).trans (hnodes k)
    have hedges' : ∀ k,
        (mapGet (addEdgeForImport modules g fp imp).edges k).isSome =
          decide (k ∈ nodeKeys modules) := fun k =>
      ((addEdge_isSome modules g fp imp k).2.1).trans (hedges k)
    rw [ih (addEdgeForImport modules g fp imp) a b hnodes' hedges' hfp]
    rw [addEdge_edges_mem modules g fp imp a b hnodes hedges hfp]
    constructor
    · rintro ((hb | ⟨hfa, himp⟩) | ⟨hfa, himps⟩)
      · exact Or.inl hb
      · exact Or.inr ⟨hfa, imp, List.mem_cons_self _ _, himp⟩
      · obtain ⟨i, hi, hp⟩ := himps
        exact Or.inr ⟨hfa, i, List.mem_cons_of_mem _ hi, hp⟩
    · rintro (hb | ⟨hfa, i, hi, hprops⟩)
      · exact Or.inl (Or.inl hb)
      · rcases List.mem_cons.mp hi with rfl | hi'
        · exact Or.inl (Or.inr ⟨hfa, hprops⟩)
        · exact Or.inr ⟨hfa, i, hi', hprops⟩

theorem addEdge_rev_mem (modules : List ModuleInfo) (g : DependencyGraph)
    (fp : String) (imp : ImportInfo) (t x : String)
    (hnodes : ∀ k, (mapGet g.nodes k).isSome = decide (k ∈ nodeKeys modules))
    (hrev : ∀ k, (mapGet g.reverseEdges k).isSome = decide (k ∈ nodeKeys modules)) :
    x ∈ (mapGet (addEdgeForImport modules g fp imp).reverseEdges t).getD [] ↔
      x ∈ (mapGet g.reverseEdges t).getD [] ∨
        (x = fp ∧ findModuleByImport imp.source modules = some t ∧
          t ≠ "" ∧ t ∈ nodeKeys modules) := by
  cases hfind : findModuleByImport imp.source modules with
  | none =>
    rw [addEdge_eq_of_skipped modules g fp imp (Or.inl hfind)]
    constructor
    · exact fun hb => Or.inl hb
    · rintro (hb | ⟨-, hc, -⟩)
      · exact hb
      · exact absurd hc (by simp)
  | some t0 =>
    by_cases hg : t0 ≠ "" ∧ (mapGet g.nodes t0).isSome
    · rw [addEdge_eq_of_found modules g fp imp t0 hfind hg]
      have ht0K : t0 ∈ nodeKeys modules := by
        have := hnodes t0
        rw [hg.2] at this
        exact of_decide_eq_true this.symm
      by_cases ht : t0 = t
      · subst ht
        dsimp only
        rw [mapGet_mapUpdate_self]
        obtain ⟨l, hl⟩ : ∃ l, mapGet g.reverseEdges t0 = some l := by
          have := hrev t0
          rw [decide_eq_true ht0K] at this
          exact Option.isSome_iff_exists.mp this
        rw [hl]
        show x ∈ setAdd l fp ↔ _
        rw [mem_setAdd]
        simp only [Option.getD_some, Option.some.injEq]
        constructor
        · rintro (hb | rfl)
          · exact Or.inl hb
          · exact Or.inr ⟨rfl, trivial, hg.1, ht0K⟩
        · rintro (hb | ⟨rfl, -, -, -⟩)
          · exact Or.inl hb
          · exact Or.inr rfl
      · dsimp only
        rw [mapGet_mapUpdate_ne _ _ _ _ (fun hc => ht hc.symm)]
        constructor
        · exact fun hb => Or.inl hb
        · rintro (hb | ⟨-, hc, -⟩)
          · exact hb
          · exact absurd (Option.some.inj hc) ht
    · rw [addEdge_eq_of_skipped modules g fp imp (Or.inr ⟨t0, hfind, hg⟩)]
      constructor
      · exact fun hb => Or.inl hb
      · rintro (hb | ⟨-, hsome, htne, htK⟩)
        · exact hb
        · have h0t : t0 = t := Option.some.inj hsome
          subst h0t
          refine absurd ⟨htne, ?_⟩ hg
          rw [hnodes t0]
          exact decide_eq_true htK

theorem importFold_rev_mem (modules : List ModuleInfo) (fp : String) :
    ∀ (imps : List ImportInfo) (g : DependencyGraph) (t x : String),
    (∀ k, (mapGet g.nodes k).isSome = decide (k ∈ nodeKeys modules)) →
    (∀ k, (mapGet g.reverseEdges k).isSome = decide (k ∈ nodeKeys modules)) →
    (x ∈ (mapGet ((imps.foldl (fun g imp => addEdgeForImport modules g fp imp) g)).reverseEdges t).getD [] ↔
      x ∈ (mapGet g.reverseEdges t).getD [] ∨
        (x = fp ∧ ∃ imp ∈ imps, findModuleByImport imp.source modules = some t ∧
          t ≠ "" ∧ t ∈ nodeKeys modules)) := by
  intro imps
  induction imps with
  | nil =>
    intro g t x _ _
    simp
  | cons imp imps ih =>
    intro g t x hnodes hrev
    rw [List.foldl_cons]
    have hnodes' : ∀ k,
        (mapGet (addEdgeForImport modules g fp imp).nodes k).isSome =
          decide (k ∈ nodeKeys modules) := fun k =>
      ((addEdge_isSome modules g fp imp k).1).trans (hnodes k)
    have hrev' : ∀ k,
        (mapGet (addEdgeForImport modules g fp imp).reverseEdges k).isSome =
          decide (k ∈ nodeKeys modules) := fun k =>
      ((addEdge_isSome modules g fp imp k).2.2).trans (hrev k)
    rw [ih (addEdgeForImport modules g fp imp) t x hnodes' hrev']
    rw [addEdge_rev_mem modules g fp imp t x hnodes hrev]
    constructor
    · rintro ((hb | ⟨hfa, himp⟩) | ⟨hfa, himps⟩)
      · exact Or.inl hb
      · exact Or.inr ⟨hfa, imp, List.mem_cons_self _ _, himp⟩
      · obtain ⟨i, hi, hp⟩ := himps
        exact Or.inr ⟨hfa, i, List.mem_cons_of_mem _ hi, hp⟩
    · rintro (hb | ⟨hfa, i, hi, hprops⟩)
      · exact Or.inl (Or.inl hb)
      · rcases List.mem_cons.mp hi with rfl | hi'
        · exact Or.inl (Or.inr ⟨hfa, hprops⟩)
        · exact Or.inr ⟨hfa, i, hi', hprops⟩

theorem processModule_edges_mem (modules : List ModuleInfo) (m : ModuleInfo)
    (g : DependencyGraph) (a b : String)
    (hnodes : ∀ k, (mapGet g.nodes k).isSome = decide (k ∈ nodeKeys modules))
    (hedges : ∀ k, (mapGet g.edges k).isSome = decide (k ∈ nodeKeys modules))
    (hm : m.filePath ∈ nodeKeys modules) :
    b ∈ (mapGet (processModule modules g m).edges a).getD [] ↔
      b ∈ (mapGet g.edges a).getD [] ∨
        (m.filePath = a ∧ ∃ imp ∈ m.imports,
          findModuleByImport imp.source modules = some b ∧ b ≠ "" ∧
            b ∈ nodeKeys modules) := by
  unfold processModule
  rw [if_pos (by rw [hnodes m.filePath]; exact decide_eq_true hm)]
  exact importFold_edges_mem modules m.filePath m.imports g a b hnodes hedges hm

theorem processModule_rev_mem (modules : List ModuleInfo) (m : ModuleInfo)
    (g : DependencyGraph) (t x : String)
    (hnodes : ∀ k, (mapGet g.nodes k).isSome = decide (k ∈ nodeKeys modules))
    (hrev : ∀ k, (mapGet g.reverseEdges k).isSome = decide (k ∈ nodeKeys modules))
    (hm : m.filePath ∈ nodeKeys modules) :
    x ∈ (mapGet (processModule modules g m).reverseEdges t).getD [] ↔
      x ∈ (mapGet g.reverseEdges t).getD [] ∨
        (x = m.filePath ∧ ∃ imp ∈ m.imports,
          findModuleByImport imp.source modules = some t ∧ t ≠ "" ∧
            t ∈ nodeKeys modules) := by
  unfold processModule
  rw [if_pos (by rw [hnodes m.filePath]; exact decide_eq_true hm)]
  exact importFold_rev_mem modules m.filePath m.imports g t x hnodes hrev

theorem modFold_edges_mem (modules : List ModuleInfo) :
    ∀ (ms : List ModuleInfo) (g : DependencyGraph) (a b : String),
    (∀ k, (mapGet g.nodes k).isSome = decide (k ∈ nodeKeys modules)) →
    (∀ k, (mapGet g.edges k).isSome = decide (k ∈ nodeKeys modules)) →
    (∀ m ∈ ms, m.filePath ∈ nodeKeys modules) →
    (b ∈ (mapGet (ms.foldl (processModule modules) g).edges a).getD [] ↔
      b ∈ (mapGet g.edges a).getD [] ∨
        ∃ m ∈ ms, m.filePath = a ∧ ∃ imp ∈ m.imports,
          findModuleByImport imp.source modules = some b ∧ b ≠ "" ∧
            b ∈ nodeKeys modules) := by
  intro ms
  induction ms with
  | nil =>
    intro g a b _ _ _
    simp
  | cons m ms ih =>
    intro g a b hnodes hedges hms
    rw [List.foldl_cons]
    have hnodes' : ∀ k,
        (mapGet (processModule modules g m).nodes k).isSome =
          decide (k ∈ nodeKeys modules) := fun k =>
      ((processModule_isSome modules m g k).1).trans (hnodes k)
    have hedges' : ∀ k,
        (mapGet (processModule modules g m).edges k).isSome =
          decide (k ∈ nodeKeys modules) := fun k =>
      ((processModule_isSome modules m g k).2.1).trans (hedges k)
    rw [ih (processModule modules g m) a b hnodes' hedges'
      (fun m' hm' => hms m' (List.mem_cons_of_mem _ hm'))]
    rw [processModule_edges_mem modules m g a b hnodes hedges
      (hms m (List.mem_cons_self _ _))]
    constructor
    · rintro ((hb | hprops) | ⟨m', hm', hprops⟩)
      · exact Or.inl hb
      · exact Or.inr ⟨m, List.mem_cons_self _ _, hprops⟩
      · exact Or.inr ⟨m', List.mem_cons_of_mem _ hm', hprops⟩
    · rintro (hb | ⟨m', hm', hprops⟩)
      · exact Or.inl (Or.inl hb)
      · rcases List.mem_cons.mp hm' with rfl | hm''
        · exact Or.inl (Or.inr hprops)
        · exact Or.inr ⟨m', hm'', hprops⟩

theorem modFold_rev_mem (modules : List ModuleInfo) :
    ∀ (ms : List ModuleInfo) (g : DependencyGraph) (t x : String),
    (∀ k, (mapGet g.nodes k).isSome = decide (k ∈ nodeKeys modules)) →
    (∀ k, (mapGet g.reverseEdges k).isSome = decide (k ∈ nodeKeys modules)) →
    (∀ m ∈ ms, m.filePath ∈ nodeKeys modules) →
    (x ∈ (mapGet (ms.foldl (processModule modules) g).reverseEdges t).getD [] ↔
      x ∈ (mapGet g.reverseEdges t).getD [] ∨
        ∃ m ∈ ms, x = m.filePath ∧ ∃ imp ∈ m.imports,
          findModuleByImport imp.source modules = some t ∧ t ≠ "" ∧
            t ∈ nodeKeys modules) := by
  intro ms
  induction ms with
  | nil =>
    intro g t x _ _ _
    simp
  | cons m ms ih =>
    intro g t x hnodes hrev hms
    rw [List.foldl_cons]
    have hnodes' : ∀ k,
        (mapGet (processModule modules g m).nodes k).isSome =
          decide (k ∈ nodeKeys modules) := fun k =>
      ((processModule_isSome modules m g k).1).trans (hnodes k)
    have hrev' : ∀ k,
        (mapGet (processModule modules g m).reverseEdges k).isSome =
          decide (k ∈ nodeKeys modules) := fun k =>
      ((processModule_isSome modules m g k).2.2).trans (hrev k)
    rw [ih (processModule modules g m) t x hnodes' hrev'
      (fun m' hm' => hms m' (List.mem_cons_of_mem _ hm'))]
    rw [processModule_rev_mem modules m g t x hnodes hrev
      (hms m (List.mem_cons_self _ _))]
    constructor
    · rintro ((hb | hprops) | ⟨m', hm', hprops⟩)
      · exact Or.inl hb
      · exact Or.inr ⟨m, List.mem_cons_self _ _, hprops⟩
      · exact Or.inr ⟨m', List.mem_cons_of_mem _ hm', hprops⟩
    · rintro (hb | ⟨m', hm', hprops⟩)
      · exact Or.inl (Or.inl hb)
      · rcases List.mem_cons.mp hm' with rfl | hm''
        · exact Or.inl (Or.inr hprops)
        · exact Or.inr ⟨m', hm'', hprops⟩

theorem createNodes_nodes_isSome_fun (modules : List ModuleInfo) (root : String) :
    ∀ k, (mapGet (createNodes modules root).nodes k).isSome =
      decide (k ∈ nodeKeys modules) :=
  fun k => createNodes_nodes_isSome modules root k

theorem createNodes_edges_isSome_fun (modules : List ModuleInfo) (root : String) :
    ∀ k, (mapGet (createNodes modules root).edges k).isSome =
      decide (k ∈ nodeKeys modules) := by
  intro k
  rw [createNodes_edges_get]
  by_cases h : k ∈ nodeKeys modules <;> simp [h]

theorem createNodes_rev_isSome_fun (modules : List ModuleInfo) (root : String) :
    ∀ k, (mapGet (createNodes modules root).reverseEdges k).isSome =
      decide (k ∈ nodeKeys modules) := by
  intro k
  rw [createNodes_rev_get]
  by_cases h : k ∈ nodeKeys modules <;> simp [h]

/-- Forward-edge characterization of the built graph. -/
theorem build_edges_mem_iff (modules : List ModuleInfo) (root : String)
    (a b : String) :
    b ∈ (mapGet (buildDependencyGraph modules root).edges a).getD [] ↔
      EdgeRel modules a b := by
  unfold buildDependencyGraph
  rw [modFold_edges_mem modules modules (createNodes modules root) a b
    (createNodes_nodes_isSome_fun modules root)
    (createNodes_edges_isSome_fun modules root)
    (fun m hm => List.mem_map_of_mem _ hm)]
  have hinit : b ∈ (mapGet (createNodes modules root).edges a).getD [] ↔ False := by
    rw [createNodes_edges_get]
    by_cases h : a ∈ nodeKeys modules <;> simp [h]
  rw [hinit]
  unfold EdgeRel
  tauto

/-- Reverse-edge characterization of the built graph. -/
theorem build_rev_mem_iff (modules : List ModuleInfo) (root : String)
    (t x : String) :
    x ∈ (mapGet (buildDependencyGraph modules root).reverseEdges t).getD [] ↔
      EdgeRel modules x t := by
  unfold buildDependencyGraph
  rw [modFold_rev_mem modules modules (createNodes modules root) t x
    (createNodes_nodes_isSome_fun modules root)
    (createNodes_rev_isSome_fun modules root)
    (fun m hm => List.mem_map_of_mem _ hm)]
  have hinit : x ∈ (mapGet (createNodes modules root).reverseEdges t).getD [] ↔ False := by
    rw [createNodes_rev_get]
    by_cases h : t ∈ nodeKeys modules <;> simp [h]
  rw [hinit]
  unfold EdgeRel
  constructor
  · rintro (h | ⟨m, hm, h1, hrest⟩)
    · exact absurd h id
    · exact ⟨m, hm, h1.symm, hrest⟩
  · rintro ⟨m, hm, h1, hrest⟩
    exact Or.inr ⟨m, hm, h1.symm, hrest⟩

theorem nodup_getD_mapUpdate_setAdd (m : List (String × List String))
    (key tgt : String) (h : ∀ k, ((mapGet m k).getD []).Nodup) :
    ∀ k, ((mapGet (mapUpdate m key (fun s => setAdd s tgt)) k).getD []).Nodup := by
  intro k
  by_cases hk : k = key
  · subst hk
    rw [mapGet_mapUpdate_self]
    cases hm : mapGet m k with
    | none => simp
    | some l =>
      simp only [Option.map_some', Option.getD_some]
      apply nodup_setAdd
      have := h k
      rw [hm] at this
      exact this
  · rw [mapGet_mapUpdate_ne _ _ _ _ hk]
    exact h k

theorem addEdge_values_nodup (modules : List ModuleInfo) (g : DependencyGraph)
    (fp : String) (imp : ImportInfo)
    (he : ∀ k, ((mapGet g.edges k).getD []).Nodup)
    (hr : ∀ k, ((mapGet g.reverseEdges k).getD []).Nodup) :
    (∀ k, ((mapGet (addEdgeForImport modules g fp imp).edges k).getD []).Nodup) ∧
    (∀ k, ((mapGet (addEdgeForImport modules g fp imp).reverseEdges k).getD []).Nodup) := by
  cases hfind : findModuleByImport imp.source modules with
  | none =>
    rw [addEdge_eq_of_skipped modules g fp imp (Or.inl hfind)]
    exact ⟨he, hr⟩
  | some t =>
    by_cases hg : t ≠ "" ∧ (mapGet g.nodes t).isSome
    · rw [addEdge_eq_of_found modules g fp imp t hfind hg]
      exact ⟨nodup_getD_mapUpdate_setAdd g.edges fp t he,
        nodup_getD_mapUpdate_setAdd g.reverseEdges t fp hr⟩
    · rw [addEdge_eq_of_skipped modules g fp imp (Or.inr ⟨t, hfind, hg⟩)]
      exact ⟨he, hr⟩

theorem importFold_values_nodup (modules : List ModuleInfo) (fp : String) :
    ∀ (imps : List ImportInfo) (g : DependencyGraph),
    (∀ k, ((mapGet g.edges k).getD []).Nodup) →
    (∀ k, ((mapGet g.reverseEdges k).getD []).Nodup) →
    (∀ k, ((mapGet ((imps.foldl (fun g imp => addEdgeForImport modules g fp imp) g)).edges k).getD []).Nodup) ∧
    (∀ k, ((mapGet ((imps.foldl (fun g imp => addEdgeForImport modules g fp imp) g)).reverseEdges k).getD []).Nodup) := by
  intro imps
  induction imps with
  | nil => intro g he hr; exact ⟨he, hr⟩
  | cons imp imps ih =>
    intro g he hr
    rw [List.foldl_cons]
    obtain ⟨he', hr'⟩ := addEdge_values_nodup modules g fp imp he hr
    exact ih (addEdgeForImport modules g fp imp) he' hr'

theorem processModule_values_nodup (modules : List ModuleInfo) (m : ModuleInfo)
    (g : DependencyGraph)
    (he : ∀ k, ((mapGet g.edges k).getD []).Nodup)
    (hr : ∀ k, ((mapGet g.reverseEdges k).getD []).Nodup) :
    (∀ k, ((mapGet (processModule modules g m).edges k).getD []).Nodup) ∧
    (∀ k, ((mapGet (processModule modules g m).reverseEdges k).getD []).Nodup) := by
  unfold processModule
  by_cases h : (mapGet g.nodes m.filePath).isSome = true
  · rw [if_pos h]
    exact importFold_values_nodup modules m.filePath m.imports g he hr
  · rw [if_neg h]
    exact ⟨he, hr⟩

theorem modFold_values_nodup (modules : List ModuleInfo) :
    ∀ (ms : List ModuleInfo) (g : DependencyGraph),
    (∀ k, ((mapGet g.edges k).getD []).Nodup) →
    (∀ k, ((mapGet g.reverseEdges k).getD []).Nodup) →
    (∀ k, ((mapGet (ms.foldl (processModule modules) g).edges k).getD []).Nodup) ∧
    (∀ k, ((mapGet (ms.foldl (processModule modules) g).reverseEdges k).getD []).Nodup) := by
  intro ms
  induction ms with
  | nil => intro g he hr; exact ⟨he, hr⟩
  | cons m ms ih =>
    intro g he hr
    rw [List.foldl_cons]
    obtain ⟨he', hr'⟩ := processModule_values_nodup modules m g he hr
    exact ih (processModule modules g m) he' hr'

/-- Both adjacency maps of a built graph are duplicate-free at every key. -/
theorem build_values_nodup (modules : List ModuleInfo) (root : String) :
    (∀ k, ((mapGet (buildDependencyGraph modules root).edges k).getD []).Nodup) ∧
    (∀ k, ((mapGet (buildDependencyGraph modules root).reverseEdges k).getD []).Nodup) := by
  unfold buildDependencyGraph
  apply modFold_values_nodup
  · intro k
    rw [createNodes_edges_get]
    by_cases h : k ∈ nodeKeys modules <;> simp [h]
  · intro k
    rw [createNodes_rev_get]
    by_cases h : k ∈ nodeKeys modules <;> simp [h]

/-- A `findModuleByImport` hit is the file path of one of the scanned
modules. -/
theorem findModuleByImport_some_mem (s : String) (modules : List ModuleInfo)
    (b : String) (h : findModuleByImport s modules = some b) :
    b ∈ nodeKeys modules := by
  unfold findModuleByImport at h
  cases hf : modules.find? (fun m => jsIncludes m.filePath s) with
  | none => rw [hf] at h; simp at h
  | some m =>
    rw [hf] at h
    simp only [Option.map_some'] at h
    have hm : m ∈ modules := List.mem_of_find?_eq_some hf
    rw [← Option.some.inj h]
    exact List.mem_map_of_mem _ hm

theorem mem_foldl_setAdd : ∀ (L s : List String) (v : String),
    v ∈ L.foldl setAdd s ↔ v ∈ s ∨ v ∈ L := by
  intro L
  induction L with
  | nil => intro s v; simp
  | cons a L ih =>
    intro s v
    rw [List.foldl_cons, ih (setAdd s a) v, mem_setAdd]
    constructor
    · rintro ((h | h) | h)
      · exact Or.inl h
      · exact Or.inr (h ▸ List.mem_cons_self _ _)
      · exact Or.inr (List.mem_cons_of_mem _ h)
    · rintro (h | h)
      · exact Or.inl (Or.inl h)
      · rcases List.mem_cons.mp h with rfl | h'
        · exact Or.inl (Or.inr rfl)
        · exact Or.inr h'

theorem closure_fold_mem (graph : DependencyGraph) (maxD : Option Nat) :
    ∀ (cfs : List String) (acc : List String) (v : String),
    v ∈ cfs.foldl (fun impacted file =>
        (getDependents file graph maxD).foldl setAdd impacted) acc ↔
      v ∈ acc ∨ ∃ x ∈ cfs, v ∈ getDependents x graph maxD := by
  intro cfs
  induction cfs with
  | nil => intro acc v; simp
  | cons c cfs ih =>
    intro acc v
    rw [List.foldl_cons, ih, mem_foldl_setAdd]
    constructor
    · rintro ((h | h) | ⟨x, hx, hv⟩)
      · exact Or.inl h
      · exact Or.inr ⟨c, List.mem_cons_self _ _, h⟩
      · exact Or.inr ⟨x, List.mem_cons_of_mem _ hx, hv⟩
    · rintro (h | ⟨x, hx, hv⟩)
      · exact Or.inl (Or.inl h)
      · rcases List.mem_cons.mp hx with rfl | hx'
        · exact Or.inl (Or.inr hv)
        · exact Or.inr ⟨x, hx', hv⟩

/-- Membership in `computeImpactedClosure`. -/
theorem computeImpactedClosure_mem (cf : List String) (graph : DependencyGraph)
    (maxD : Option Nat) (v : String) :
    v ∈ computeImpactedClosure cf graph maxD ↔
      v ∈ cf ∨ ∃ x ∈ cf, v ∈ getDependents x graph maxD := by
  unfold computeImpactedClosure
  rw [closure_fold_mem, mem_foldl_setAdd]
  simp

theorem depthGt_zero (maxD : Option Nat) : depthGt 0 maxD = false := by
  cases maxD <;> simp [depthGt]

/-- Starting the BFS at a path with no adjacency entry yields the empty
set. -/
theorem bfs_no_entry (E : List (String × List String)) (maxD : Option Nat)
    (f : String) (h : mapGet E f = none) :
    (bfsLoop E maxD [] [(f, 0)]).erase f = [] := by
  have hnb : neighborsOf E f = [] := by
    unfold neighborsOf
    rw [h]
    rfl
  rw [bfsLoop]
  rw [dif_neg (by
    rintro (hc | hc)
    · simp at hc
    · rw [depthGt_zero] at hc
      exact Bool.false_ne_true hc)]
  rw [hnb]
  simp only [List.map_nil, List.append_nil, List.nil_append]
  rw [bfsLoop]
  simp

/-! ## Claim theorems for the graph component -/

/-- Modules with a mutual import `a ↔ b` (cycle-safety example of C2). -/
def c2Modules : List ModuleInfo :=
  [⟨"/t/a.ts", [⟨"b.ts", [], false, false⟩], []⟩,
   ⟨"/t/b.ts", [⟨"a.ts", [], false, false⟩], []⟩]

/-- Modules forming the chain `a → b → c` (C3's closure example). -/
def c3Modules : List ModuleInfo :=
  [⟨"/t/a.ts", [⟨"b.ts", [], false, false⟩], []⟩,
   ⟨"/t/b.ts", [⟨"c.ts", [], false, false⟩], []⟩,
   ⟨"/t/c.ts", [], []⟩]

/-- A module importing the same target twice (C4's counterexample). -/
def c4Modules : List ModuleInfo :=
  [⟨"/r/a.ts", [⟨"b.ts", [], false, false⟩, ⟨"b.ts", [], false, false⟩], []⟩,
   ⟨"/r/b.ts", [], []⟩]

/-- Modules for the C1 witness: `a` imports a source resolving to `b`. -/
def c1Modules : List ModuleInfo :=
  [⟨"/t/a.ts", [⟨"b.ts", [], false, false⟩], []⟩,
   ⟨"/t/b.ts", [], []⟩]

/-- C1: in the graph produced by `buildDependencyGraph`, `forwardEdges[a]`
contains `b` iff some scanned module with path `a` has an import whose
resolved target (via `findModuleByImport`) is exactly `b` and `b` is in
the node set.  In particular an edge is never created to a scanned file
different from the import's resolved target, and an import whose resolved
target is not a scanned file creates no edge.  (The hypothesis restricts
to non-empty file paths, which the data model guarantees — `filePath` is
an absolute path; the JS code tests the resolved target for string
truthiness, so the empty path would additionally be rejected there.) -/
theorem claim_C1_forward_edges_iff (modules : List ModuleInfo) (root : String)
    (a b : String) (hNE : ∀ m ∈ modules, m.filePath ≠ "") :
    b ∈ (mapGet (buildDependencyGraph modules root).edges a).getD [] ↔
      ∃ m ∈ modules, m.filePath = a ∧ ∃ imp ∈ m.imports,
        findModuleByImport imp.source modules = some b ∧
          (mapGet (buildDependencyGraph modules root).nodes b).isSome := by
  rw [build_edges_mem_iff]
  unfold EdgeRel
  constructor
  · rintro ⟨m, hm, ha, imp, hi, hfind, hne, hbK⟩
    refine ⟨m, hm, ha, imp, hi, hfind, ?_⟩
    rw [build_nodes_isSome]
    exact decide_eq_true hbK
  · rintro ⟨m, hm, ha, imp, hi, hfind, hnode⟩
    have hbK : b ∈ nodeKeys modules := by
      rw [build_nodes_isSome] at hnode
      exact of_decide_eq_true hnode
    have hne : b ≠ "" := by
      rcases List.mem_map.mp hbK with ⟨m', hm', hfp⟩
      rw [← hfp]
      exact hNE m' hm'
    exact ⟨m, hm, ha, imp, hi, hfind, hne, hbK⟩

theorem claim_C1_forward_edges_iff_witness :
    (∀ m ∈ c1Modules, m.filePath ≠ "") ∧
    ("/t/b.ts" ∈ (mapGet (buildDependencyGraph c1Modules "/t").edges "/t/a.ts").getD [] ↔
      ∃ m ∈ c1Modules, m.filePath = "/t/a.ts" ∧ ∃ imp ∈ m.imports,
        findModuleByImport imp.source c1Modules = some "/t/b.ts" ∧
          (mapGet (buildDependencyGraph c1Modules "/t").nodes "/t/b.ts").isSome) :=
  ⟨by decide,
    claim_C1_forward_edges_iff c1Modules "/t" "/t/a.ts" "/t/b.ts" (by decide)⟩

/-- C4 fails as stated: the adjacency sets deduplicate, but the
`GraphNode.dependencies` array receives one `push` per import occurrence,
so a doubled import yields `["/r/b.ts", "/r/b.ts"]` there — import
multiplicity IS preserved inside the node records. -/
theorem claim_C4_counterexample :
    (mapGet (buildDependencyGraph c4Modules "/r").edges "/r/a.ts").getD [] =
      ["/r/b.ts"] ∧
    ((mapGet (buildDependencyGraph c4Modules "/r").nodes "/r/a.ts").map
      GraphNode.dependencies).getD [] = ["/r/b.ts", "/r/b.ts"] ∧
    ¬ (((mapGet (buildDependencyGraph c4Modules "/r").nodes "/r/a.ts").map
      GraphNode.dependencies).getD []).Nodup := by
  refine ⟨by decide, by decide, by decide⟩

/-- C4 (amended): in every built graph the `edges` and `reverseEdges`
adjacency sets are duplicate-free — repeated imports collapse to one
forward and one reverse edge — but the `GraphNode.dependencies` /
`dependents` arrays record one entry per import occurrence (see the
counterexample), so multiplicity is preserved there. -/
theorem claim_C4_amended (modules : List ModuleInfo) (root : String)
    (a : String) :
    ((mapGet (buildDependencyGraph modules root).edges a).getD []).Nodup ∧
    ((mapGet (buildDependencyGraph modules root).reverseEdges a).getD []).Nodup :=
  ⟨(build_values_nodup modules root).1 a, (build_values_nodup modules root).2 a⟩

/-- C5: in every built graph, `reverseEdges[b]` contains `a` iff
`forwardEdges[a]` contains `b` — the two adjacency maps are exact
mirrors. -/
theorem claim_C5_mirrored_edges (modules : List ModuleInfo) (root : String)
    (a b : String) :
    a ∈ (mapGet (buildDependencyGraph modules root).reverseEdges b).getD [] ↔
      b ∈ (mapGet (buildDependencyGraph modules root).edges a).getD [] := by
  rw [build_edges_mem_iff, build_rev_mem_iff]

/-- C2: on any finite graph (cycles and self-loops included) the
traversals terminate (they are total Lean functions) and return exactly
the nodes whose shortest forward-hop (resp. reverse-hop) distance from
the start lies between 1 and `maxDepth` (`none` embeds `Infinity`: all
reachable nodes), the start excluded; and on a mutual-import graph
`a ↔ b`, `getDependencies(a, ∞)` is exactly `{b}`. -/
theorem claim_C2_traversal_shortest_distance (g : DependencyGraph)
    (start v : String) (maxD : Option Nat) :
    (v ∈ getDependencies start g maxD ↔
      ∃ n, isShortestDistance g.edges start v n ∧ 1 ≤ n ∧ depthLe n maxD) ∧
    (v ∈ getDependents start g maxD ↔
      ∃ n, isShortestDistance g.reverseEdges start v n ∧ 1 ≤ n ∧ depthLe n maxD) ∧
    getDependencies "/t/a.ts" (buildDependencyGraph c2Modules "/t") none =
      ["/t/b.ts"] := by
  refine ⟨?_, ?_, ?_⟩
  · unfold getDependencies
    exact traversal_mem_iff g.edges maxD start v
  · unfold getDependents
    exact traversal_mem_iff g.reverseEdges maxD start v
  · have hE : (buildDependencyGraph c2Modules "/t").edges =
        [("/t/a.ts", ["/t/b.ts"]), ("/t/b.ts", ["/t/a.ts"])] := by decide
    unfold getDependencies
    rw [hE]
    simp [bfsLoop, neighborsOf, mapGet, depthGt, List.find?]

/-- C3: `computeImpactedClosure` is exactly `changedFiles` united with the
dependents sets of its members; the `maxDepth` default is 3; and on the
chain `a → b → c`, `computeImpactedClosure(['c'], graph, 3)` is
`{a, b, c}`. -/
theorem claim_C3_impacted_closure (cf : List String) (g : DependencyGraph)
    (maxD : Option Nat) (v : String) :
    (v ∈ computeImpactedClosure cf g maxD ↔
      v ∈ cf ∨ ∃ x ∈ cf, v ∈ getDependents x g maxD) ∧
    computeImpactedClosure cf g = computeImpactedClosure cf g (some 3) ∧
    (computeImpactedClosure ["/t/c.ts"] (buildDependencyGraph c3Modules "/t")
      (some 3)).Perm ["/t/a.ts", "/t/b.ts", "/t/c.ts"] := by
  refine ⟨computeImpactedClosure_mem cf g maxD v, rfl, ?_⟩
  have hR : (buildDependencyGraph c3Modules "/t").reverseEdges =
      [("/t/a.ts", []), ("/t/b.ts", ["/t/a.ts"]), ("/t/c.ts", ["/t/b.ts"])] := by
    decide
  have heval : computeImpactedClosure ["/t/c.ts"]
      (buildDependencyGraph c3Modules "/t") (some 3) =
      ["/t/c.ts", "/t/b.ts", "/t/a.ts"] := by
    unfold computeImpactedClosure getDependents
    rw [hR]
    simp [bfsLoop, neighborsOf, mapGet, depthGt, List.find?, setAdd]
  rw [heval]
  decide

/-- C10: querying the traversals from a file that is not a node returns
the empty set, and the impacted closure of changed files none of which is
a node is exactly that changed-file set. -/
theorem claim_C10_missing_nodes (modules : List ModuleInfo) (root : String)
    (f : String) (maxD : Option Nat) (cf : List String) (v : String)
    (h : mapGet (buildDependencyGraph modules root).nodes f = none)
    (hcf : ∀ x ∈ cf, mapGet (buildDependencyGraph modules root).nodes x = none) :
    getDependencies f (buildDependencyGraph modules root) maxD = [] ∧
    getDependents f (buildDependencyGraph modules root) maxD = [] ∧
    (v ∈ computeImpactedClosure cf (buildDependencyGraph modules root) maxD ↔
      v ∈ cf) := by
  have hK : ∀ x, mapGet (buildDependencyGraph modules root).nodes x = none →
      x ∉ nodeKeys modules := by
    intro x hx hmem
    have := build_nodes_isSome modules root x
    rw [hx] at this
    simp only [Option.isSome_none] at this
    rw [decide_eq_true hmem] at this
    exact Bool.false_ne_true this
  have hEdgesNone : ∀ x, x ∉ nodeKeys modules →
      mapGet (buildDependencyGraph modules root).edges x = none := by
    intro x hx
    have := build_edges_isSome modules root x
    rw [decide_eq_false hx] at this
    exact Option.not_isSome_iff_eq_none.mp (by rw [this]; exact Bool.false_ne_true)
  have hRevNone : ∀ x, x ∉ nodeKeys modules →
      mapGet (buildDependencyGraph modules root).reverseEdges x = none := by
    intro x hx
    have := build_rev_isSome modules root x
    rw [decide_eq_false hx] at this
    exact Option.not_isSome_iff_eq_none.mp (by rw [this]; exact Bool.false_ne_true)
  refine ⟨?_, ?_, ?_⟩
  · unfold getDependencies
    exact bfs_no_entry _ maxD f (hEdgesNone f (hK f h))
  · unfold getDependents
    exact bfs_no_entry _ maxD f (hRevNone f (hK f h))
  · rw [computeImpactedClosure_mem]
    constructor
    · rintro (hv | ⟨x, hx, hv⟩)
      · exact hv
      · have : getDependents x (buildDependencyGraph modules root) maxD = [] := by
          unfold getDependents
          exact bfs_no_entry _ maxD x (hRevNone x (hK x (hcf x hx)))
        rw [this] at hv
        simp at hv
    · exact fun hv => Or.inl hv

theorem claim_C10_missing_nodes_witness :
    (mapGet (buildDependencyGraph ([] : List ModuleInfo) "/").nodes "/x" = none) ∧
    (∀ x ∈ ["/x"], mapGet (buildDependencyGraph ([] : List ModuleInfo) "/").nodes x = none) ∧
    (getDependencies "/x" (buildDependencyGraph ([] : List ModuleInfo) "/") (some 3) = [] ∧
     getDependents "/x" (buildDependencyGraph ([] : List ModuleInfo) "/") (some 3) = [] ∧
     ("/x" ∈ computeImpactedClosure ["/x"]
        (buildDependencyGraph ([] : List ModuleInfo) "/") (some 3) ↔ "/x" ∈ ["/x"])) :=
  ⟨by decide, by decide,
    claim_C10_missing_nodes [] "/" "/x" (some 3) ["/x"] "/x" (by decide) (by decide)⟩

/-! ## The import resolver (`resolveImport` / `resolvePathAlias`)

The resolver probes the filesystem with `stat` (kind-aware) and `access`
(existence only).  A filesystem snapshot is embedded as a map from path
strings to entry kinds; `stat` failure / `access` failure is `none`. -/

inductive FKind
  | file
  | dir
  deriving DecidableEq, Repr

def FileSystem : Type := String → Option FKind

/-- JS `String.prototype.startsWith`. -/
def jsStartsWith (s pre : String) : Bool :=
  pre.data.isPrefixOf s.data

/-- Node `path.dirname` on an absolute path. -/
def dirnameStr (s : String) : String :=
  renderAbs ((splitPath s).dropLast)

/-- `path.resolve` applied to an absolute base: normalize `.`/`..` and
duplicate slashes. -/
def normalizeAbs (s : String) : String :=
  renderAbs (normalizeSegs (splitPath s))

/-- Node `path.resolve(dir, s)` for absolute `dir` (an absolute `s` wins
outright). -/
def resolvePath (dir s : String) : String :=
  if jsStartsWith s "/" then normalizeAbs s
  else normalizeAbs (dir ++ "/" ++ s)

/-- Node `path.join(a, b)` for absolute `a`. -/
def joinPath (a b : String) : String :=
  normalizeAbs (a ++ "/" ++ b)

/-- The part of the path after the last `/`. -/
def basenameOf (s : String) : String :=
  (splitSegs [] s.data).getLastD ""

/-- Node `path.extname`: the suffix of the basename from its last `.`,
empty when there is no dot or only a leading dot. -/
def extnameStr (s : String) : String :=
  let parts := splitOnChar '.' [] (basenameOf s).data
  if parts.length ≥ 2 ∧ ¬ (parts.length = 2 ∧ parts.headD "" = "") then
    "." ++ parts.getLastD ""
  else ""

/-- The destructuring default of `resolveImport`. -/
def defaultExtensions : List String :=
  [".ts", ".tsx", ".js", ".jsx", ".mjs", ".cjs"]

/-- `ResolverOptions` of the resolver module (tsconfig-derived). -/
structure ResolverOptions where
  baseUrl : Option String := none
  paths : Option (List (String × List String)) := none
  extensions : Option (List String) := none

/-- The index-file loop of step "candidate is a directory": try
`basePath/index<ext>` for each extension in order (`access`: any entry
kind). -/
def tryIndex (basePath : String) (fs : FileSystem) : List String → Option String
  | [] => none
  | ext :: rest =>
    let indexPath := joinPath basePath ("index" ++ ext)
    if (fs indexPath).isSome then some indexPath else tryIndex basePath fs rest

/-- The extension loop: skip an extension the candidate already ends
with, else try `basePath<ext>` (`access`: any entry kind). -/
def tryExts (basePath : String) (fs : FileSystem) : List String → Option String
  | [] => none
  | ext :: rest =>
    if extnameStr basePath = ext then tryExts basePath fs rest
    else
      let withExt := basePath ++ ext
      if (fs withExt).isSome then some withExt else tryExts basePath fs rest

/-- Steps 3–5 of the resolver on an already-computed candidate base:
`stat` the base (file wins; a directory triggers the index loop, falling
through to the extension loop), else the extension loop. -/
def resolveBase (basePath : String) (extensions : List String)
    (fs : FileSystem) : Option String :=
  match fs basePath with
  | some FKind.file => some basePath
  | some FKind.dir =>
    match tryIndex basePath fs extensions with
    | some r => some r
    | none => tryExts basePath fs extensions
  | none => tryExts basePath fs extensions

/-- The relative/absolute branch of `resolveImport`: compute
`basePath = resolve(dirname(fromFile), importPath)` and run steps 3–5. -/
def resolveRelative (importPath fromFile : String) (extensions : List String)
    (fs : FileSystem) : Option String :=
  resolveBase (resolvePath (dirnameStr fromFile) importPath) extensions fs

/-- `resolveImport` specialized to `paths: undefined` — exactly the
recursive call `resolvePathAlias` makes (alias lookup disabled). -/
def resolveImportNoPaths (importPath fromFile : String)
    (extensions : List String) (fs : FileSystem) : Option String :=
  if jsStartsWith importPath "." || jsStartsWith importPath "/" then
    resolveRelative importPath fromFile extensions fs
  else none

/-- The wildcard match of `resolvePathAlias`:
`new RegExp('^' + pattern.replace('*', '(.*)') + '$')` applied to the
specifier, transcribed for patterns in the `plainPattern` region
(literal parts with no regex metacharacters, at most one `*`):
zero stars compare the texts, one star requires the literal prefix and
suffix around the unique greedy capture.  `match[1] || ''` makes the
capture default to the empty string. -/
def matchPattern (pattern spec : String) : Option String :=
  match splitOnChar '*' [] pattern.data with
  | [p] => if spec = p then some "" else none
  | [p, suf] =>
    let sd := spec.data
    if p.data.isPrefixOf sd ∧ suf.data.isSuffixOf (sd.drop p.data.length) ∧
        p.data.length + suf.data.length ≤ sd.length then
      some ⟨(sd.drop p.data.length).take (sd.length - p.data.length - suf.data.length)⟩
    else none
  | _ => none

/-- JS `mapping.replace('*', captured)`: replace the first `*` only. -/
def replaceFirstStar (s cap : String) : String :=
  match splitOnChar '*' [] s.data with
  | [] => s
  | [p] => p
  | p :: rest => p ++ cap ++ String.intercalate "*" rest

/-- The template loop of `resolvePathAlias`: substitute the capture,
resolve against `baseUrl`, attempt resolution with alias lookup
disabled, return the first truthy result. -/
def mappingLoop (fromFile : String) (extensions : List String)
    (fs : FileSystem) (baseUrl captured : String) :
    List String → Option String
  | [] => none
  | mapping :: rest =>
    let resolvedPath := replaceFirstStar mapping captured
    let fullPath := resolvePath baseUrl resolvedPath
    match resolveImportNoPaths fullPath fromFile extensions fs with
    | some r => some r
    | none => mappingLoop fromFile extensions fs baseUrl captured rest

/-- The pattern loop of `resolvePathAlias`: every entry is tried in
order; a matching pattern whose mappings all fail does not stop the
loop. -/
def aliasLoop (spec fromFile : String) (extensions : List String)
    (fs : FileSystem) (baseUrl : String) :
    List (String × List String) → Option String
  | [] => none
  | (pattern, mappings) :: rest =>
    match matchPattern pattern spec with
    | some captured =>
      match mappingLoop fromFile extensions fs baseUrl captured mappings with
      | some r => some r
      | none => aliasLoop spec fromFile extensions fs baseUrl rest
    | none => aliasLoop spec fromFile extensions fs baseUrl rest

/-- `resolvePathAlias` of the resolver module. -/
def resolvePathAlias (importPath fromFile : String) (options : ResolverOptions)
    (fs : FileSystem) : Option String :=
  match options.paths, options.baseUrl with
  | some table, some baseUrl =>
    aliasLoop importPath fromFile (options.extensions.getD defaultExtensions)
      fs baseUrl table
  | _, _ => none

/-- `resolveImport` of the resolver module.  The JS early return for
specifiers starting with neither `.` nor `/` (alias lookup or null) is
written as the positive branch split; `if (resolved) return resolved`
collapses to returning the alias result (every produced path starts with
`/`, so a truthy-empty string cannot occur). -/
def resolveImport (importPath fromFile : String) (options : ResolverOptions)
    (fs : FileSystem) : Option String :=
  if jsStartsWith importPath "." || jsStartsWith importPath "/" then
    resolveRelative importPath fromFile (options.extensions.getD defaultExtensions) fs
  else
    match options.paths with
    | some _ =>
      match resolvePathAlias importPath fromFile options fs with
      | some r => some r
      | none => none
    | none => none

/-! ## Path algebra used by the resolver claims -/

/-- A well-formed path segment: non-empty and without `/`. -/
def goodSeg (x : String) : Prop :=
  x ≠ "" ∧ '/' ∉ x.data

theorem splitOnChar_append_sep (sep : Char) :
    ∀ (xs : List Char) (cur ys : List Char),
      splitOnChar sep cur (xs ++ sep :: ys) =
        splitOnChar sep cur xs ++ splitOnChar sep [] ys := by
  intro xs
  induction xs with
  | nil =>
    intro cur ys
    rw [List.nil_append]
    rw [splitOnChar, splitOnChar]
    rw [if_pos rfl]
    rfl
  | cons c xs ih =>
    intro cur ys
    rw [List.cons_append, splitOnChar, splitOnChar]
    by_cases hc : c = sep
    · rw [if_pos hc, if_pos hc]
      rw [ih [] ys]
      rfl
    · rw [if_neg hc, if_neg hc]
      exact ih (c :: cur) ys

theorem splitOnChar_no_sep (sep : Char) :
    ∀ (xs cur : List Char), sep ∉ xs →
      splitOnChar sep cur xs = [⟨cur.reverse ++ xs⟩] := by
  intro xs
  induction xs with
  | nil =>
    intro cur _
    rw [splitOnChar]
    simp
  | cons c xs ih =>
    intro cur hns
    rw [splitOnChar]
    rw [if_neg (fun hc => hns (by rw [← hc]; exact List.mem_cons_self _ _))]
    rw [ih (c :: cur) (fun hm => hns (List.mem_cons_of_mem _ hm))]
    simp

theorem splitOnChar_mem_no_sep (sep : Char) :
    ∀ (xs cur : List Char), sep ∉ cur →
      ∀ x ∈ splitOnChar sep cur xs, sep ∉ x.data := by
  intro xs
  induction xs with
  | nil =>
    intro cur hcur x hx
    rw [splitOnChar] at hx
    simp only [List.mem_singleton] at hx
    subst hx
    simpa using fun hm => hcur (List.mem_reverse.mp hm)
  | cons c xs ih =>
    intro cur hcur x hx
    rw [splitOnChar] at hx
    by_cases hc : c = sep
    · rw [if_pos hc] at hx
      rcases List.mem_cons.mp hx with rfl | hx'
      · simpa using fun hm => hcur (List.mem_reverse.mp hm)
      · exact ih [] (by simp) x hx'
    · rw [if_neg hc] at hx
      refine ih (c :: cur) ?_ x hx
      intro hm
      rcases List.mem_cons.mp hm with h | h
      · exact hc h.symm
      · exact hcur h

theorem splitOnChar_ne_nil (sep : Char) :
    ∀ (xs cur : List Char), splitOnChar sep cur xs ≠ [] := by
  intro xs
  induction xs with
  | nil => intro cur h; rw [splitOnChar] at h; simp at h
  | cons c xs ih =>
    intro cur h
    rw [splitOnChar] at h
    by_cases hc : c = sep
    · rw [if_pos hc] at h; simp at h
    · rw [if_neg hc] at h; exact ih (c :: cur) h

theorem splitPath_append (a b : String) :
    splitPath (a ++ "/" ++ b) = splitPath a ++ splitPath b := by
  unfold splitPath splitSegs
  rw [String.data_append, String.data_append]
  have : ("/" : String).data = ['/'] := rfl
  rw [this]
  rw [show a.data ++ ['/'] ++ b.data = a.data ++ '/' :: b.data by simp]
  rw [splitOnChar_append_sep '/' a.data [] b.data]
  rw [List.filter_append]

theorem string_mk_data (s : String) : (⟨s.data⟩ : String) = s := rfl

theorem splitOnChar_cons_sep (sep : Char) (cur ys : List Char) :
    splitOnChar sep cur (sep :: ys) =
      (⟨cur.reverse⟩ : String) :: splitOnChar sep [] ys := by
  rw [splitOnChar]
  rw [if_pos rfl]

theorem splitPath_singleton (name : String) (h : goodSeg name) :
    splitPath name = [name] := by
  unfold splitPath splitSegs
  rw [splitOnChar_no_sep '/' name.data [] h.2]
  simp only [List.reverse_nil, List.nil_append, string_mk_data]
  simp [h.1]

theorem renderAbs_data (L : List String) :
    ∃ t, (renderAbs L).data = '/' :: t := by
  cases L with
  | nil => exact ⟨[], rfl⟩
  | cons x rest =>
    cases rest with
    | nil =>
      refine ⟨x.data, ?_⟩
      show (("/" ++ x : String)).data = _
      rw [String.data_append]
      rfl
    | cons y rest' =>
      refine ⟨x.data ++ (renderAbs (y :: rest')).data, ?_⟩
      show (("/" ++ x ++ renderAbs (y :: rest') : String)).data = _
      rw [String.data_append, String.data_append]
      rfl

theorem splitPath_renderAbs :
    ∀ (L : List String), (∀ x ∈ L, goodSeg x) → splitPath (renderAbs L) = L := by
  intro L
  induction L with
  | nil => intro _; rfl
  | cons x rest ih =>
    intro hwf
    have hx : goodSeg x := hwf x (List.mem_cons_self _ _)
    cases rest with
    | nil =>
      show splitPath ("/" ++ x) = [x]
      unfold splitPath splitSegs
      rw [String.data_append]
      rw [show ("/" : String).data = ['/'] from rfl]
      rw [List.cons_append, List.nil_append]
      rw [splitOnChar_cons_sep]
      rw [splitOnChar_no_sep '/' x.data [] hx.2]
      simp only [List.reverse_nil, List.nil_append, string_mk_data]
      simp [hx.1]
    | cons y rest' =>
      obtain ⟨t, ht⟩ := renderAbs_data (y :: rest')
      have ihr := ih (fun z hz => hwf z (List.mem_cons_of_mem _ hz))
      unfold splitPath splitSegs at ihr
      rw [ht] at ihr
      rw [splitOnChar_cons_sep] at ihr
      simp only [List.reverse_nil, string_mk_data] at ihr
      rw [List.filter_cons_of_neg (by simp)] at ihr
      show splitPath ("/" ++ x ++ renderAbs (y :: rest')) = x :: y :: rest'
      unfold splitPath splitSegs
      rw [String.data_append, String.data_append]
      rw [show ("/" : String).data = ['/'] from rfl]
      rw [ht]
      rw [List.cons_append, List.nil_append]
      rw [splitOnChar_append_sep '/' ('/' :: x.data) [] t]
      rw [splitOnChar_cons_sep]
      rw [splitOnChar_no_sep '/' x.data [] hx.2]
      simp only [List.reverse_nil, List.nil_append, string_mk_data]
      rw [List.filter_append]
      rw [List.filter_cons_of_neg (by simp)]
      rw [List.filter_cons_of_pos (by simpa using hx.1)]
      rw [ihr]
      simp

theorem normalizeSegs_foldl_no_dots :
    ∀ (B : List String) (acc : List String),
      (∀ x ∈ B, x ≠ "." ∧ x ≠ "..") →
      B.foldl (fun acc seg =>
        if seg = "." then acc
        else if seg = ".." then acc.dropLast
        else acc ++ [seg]) acc = acc ++ B := by
  intro B
  induction B with
  | nil => intro acc _; simp
  | cons b B ih =>
    intro acc hB
    have hb := hB b (List.mem_cons_self _ _)
    rw [List.foldl_cons]
    rw [if_neg hb.1, if_neg hb.2]
    rw [ih (acc ++ [b]) (fun x hx => hB x (List.mem_cons_of_mem _ hx))]
    simp

theorem normalizeSegs_self (L : List String)
    (h : ∀ x ∈ L, x ≠ "." ∧ x ≠ "..") : normalizeSegs L = L := by
  unfold normalizeSegs
  rw [normalizeSegs_foldl_no_dots L [] h]
  simp

theorem mem_normalizeSegs_foldl :
    ∀ (B acc : List String) (x : String),
      x ∈ B.foldl (fun acc seg =>
        if seg = "." then acc
        else if seg = ".." then acc.dropLast
        else acc ++ [seg]) acc →
      x ∈ acc ∨ (x ∈ B ∧ x ≠ "." ∧ x ≠ "..") := by
  intro B
  induction B with
  | nil => intro acc x hx; exact Or.inl hx
  | cons b B ih =>
    intro acc x hx
    rw [List.foldl_cons] at hx
    by_cases hb1 : b = "."
    · rw [if_pos hb1] at hx
      rcases ih acc x hx with h | ⟨h1, h2⟩
      · exact Or.inl h
      · exact Or.inr ⟨List.mem_cons_of_mem _ h1, h2⟩
    · rw [if_neg hb1] at hx
      by_cases hb2 : b = ".."
      · rw [if_pos hb2] at hx
        rcases ih acc.dropLast x hx with h | ⟨h1, h2⟩
        · exact Or.inl (List.dropLast_subset _ h)
        · exact Or.inr ⟨List.mem_cons_of_mem _ h1, h2⟩
      · rw [if_neg hb2] at hx
        rcases ih (acc ++ [b]) x hx with h | ⟨h1, h2⟩
        · rcases List.mem_append.mp h with h' | h'
          · exact Or.inl h'
          · simp only [List.mem_singleton] at h'
            subst h'
            exact Or.inr ⟨List.mem_cons_self _ _, hb1, hb2⟩
        · exact Or.inr ⟨List.mem_cons_of_mem _ h1, h2⟩

theorem mem_normalizeSegs (L : List String) (x : String)
    (hx : x ∈ normalizeSegs L) : x ∈ L ∧ x ≠ "." ∧ x ≠ ".." := by
  unfold normalizeSegs at hx
  rcases mem_normalizeSegs_foldl L [] x hx with h | h
  · simp at h
  · exact h

/-- The segments of a normalized absolute path: well-formed and free of
dot segments. -/
def normalSegs (L : List String) : Prop :=
  ∀ x ∈ L, goodSeg x ∧ x ≠ "." ∧ x ≠ ".."

theorem splitPath_goodSeg (s : String) : ∀ x ∈ splitPath s, goodSeg x := by
  intro x hx
  unfold splitPath splitSegs at hx
  have h1 := List.of_mem_filter hx
  have h2 := List.mem_of_mem_filter hx
  refine ⟨by simpa using h1, ?_⟩
  exact splitOnChar_mem_no_sep '/' s.data [] (by simp) x h2

theorem normalizeAbs_segs (s : String) :
    normalSegs (normalizeSegs (splitPath s)) := by
  intro x hx
  obtain ⟨h1, h2, h3⟩ := mem_normalizeSegs (splitPath s) x hx
  exact ⟨splitPath_goodSeg s x h1, h2, h3⟩

theorem splitPath_normalizeAbs (s : String) :
    splitPath (normalizeAbs s) = normalizeSegs (splitPath s) := by
  unfold normalizeAbs
  exact splitPath_renderAbs _ (fun x hx => (normalizeAbs_segs s x hx).1)

theorem normalizeAbs_renderAbs (L : List String) (h : normalSegs L) :
    normalizeAbs (renderAbs L) = renderAbs L := by
  unfold normalizeAbs
  rw [splitPath_renderAbs L (fun x hx => (h x hx).1)]
  rw [normalizeSegs_self L (fun x hx => (h x hx).2)]

theorem normalizeAbs_idem (s : String) :
    normalizeAbs (normalizeAbs s) = normalizeAbs s := by
  conv_lhs => rw [normalizeAbs]
  rw [splitPath_normalizeAbs]
  rw [normalizeSegs_self _ (fun x hx => (normalizeAbs_segs s x hx).2)]
  rfl

theorem jsStartsWith_renderAbs (L : List String) :
    jsStartsWith (renderAbs L) "/" = true := by
  unfold jsStartsWith
  obtain ⟨t, ht⟩ := renderAbs_data L
  rw [ht]
  rw [show ("/" : String).data = ['/'] from rfl]
  simp [List.isPrefixOf]

theorem jsStartsWith_normalizeAbs (s : String) :
    jsStartsWith (normalizeAbs s) "/" = true :=
  jsStartsWith_renderAbs _

theorem getLastD_default_irrel {α : Type} (l : List α) (a b : α)
    (h : l ≠ []) : l.getLastD a = l.getLastD b := by
  cases l with
  | nil => exact absurd rfl h
  | cons c l' => rw [List.getLastD_cons, List.getLastD_cons]

theorem foldl_dot_seg (acc : List String) (x : String) (h1 : x ≠ ".")
    (h2 : x ≠ "..") :
    List.foldl (fun acc seg =>
      if seg = "." then acc
      else if seg = ".." then acc.dropLast
      else acc ++ [seg]) acc [".", x] = acc ++ [x] := by
  rw [List.foldl_cons, if_pos rfl, List.foldl_cons, if_neg h1, if_neg h2,
    List.foldl_nil]

/-- The candidate base for the specifier `./b`: the directory of the
importing file with segment `b` appended. -/
theorem resolve_dot_b (fromFile : String) :
    resolvePath (dirnameStr fromFile) "./b" =
      renderAbs (normalizeSegs (splitPath (dirnameStr fromFile)) ++ ["b"]) := by
  unfold resolvePath
  rw [if_neg (by decide)]
  unfold normalizeAbs
  rw [splitPath_append]
  rw [show splitPath "./b" = [".", "b"] from by decide]
  congr 1
  unfold normalizeSegs
  rw [List.foldl_append]
  exact foldl_dot_seg _ "b" (by decide) (by decide)

theorem basenameOf_renderAbs :
    ∀ (L : List String), (∀ x ∈ L, goodSeg x) → L ≠ [] →
      basenameOf (renderAbs L) = L.getLastD "" := by
  intro L
  induction L with
  | nil => intro _ h; exact absurd rfl h
  | cons x rest ih =>
    intro hwf _
    have hx : goodSeg x := hwf x (List.mem_cons_self _ _)
    cases rest with
    | nil =>
      show basenameOf ("/" ++ x) = _
      unfold basenameOf
      rw [String.data_append]
      rw [show ("/" : String).data = ['/'] from rfl]
      rw [List.cons_append, List.nil_append]
      unfold splitSegs
      rw [splitOnChar_cons_sep]
      rw [splitOnChar_no_sep '/' x.data [] hx.2]
      simp [string_mk_data]
    | cons y rest' =>
      obtain ⟨t, ht⟩ := renderAbs_data (y :: rest')
      have hne := splitOnChar_ne_nil '/' t []
      have ihr := ih (fun z hz => hwf z (List.mem_cons_of_mem _ hz)) (by simp)
      unfold basenameOf splitSegs at ihr
      rw [ht, splitOnChar_cons_sep, List.getLastD_cons] at ihr
      show basenameOf ("/" ++ x ++ renderAbs (y :: rest')) = _
      unfold basenameOf splitSegs
      rw [String.data_append, String.data_append,
        show ("/" : String).data = ['/'] from rfl, ht,
        List.cons_append, List.nil_append,
        splitOnChar_append_sep '/' ('/' :: x.data) [] t]
      rw [List.getLastD_eq_getLast?, List.getLast?_append]
      cases hq : (splitOnChar '/' [] t).getLast? with
      | none =>
        exact absurd (List.getLast?_eq_none_iff.mp hq) hne
      | some q =>
        have hq' : (splitOnChar '/' [] t).getLastD (⟨List.reverse []⟩ : String) = q := by
          rw [List.getLastD_eq_getLast?, hq]
          rfl
        rw [hq'] at ihr
        simp only [Option.or, Option.getD_some]
        calc q = (y :: rest').getLastD "" := ihr
          _ = (y :: rest').getLastD x := getLastD_default_irrel _ "" x (by simp)
          _ = (x :: y :: rest').getLastD "" := (List.getLastD_cons _ _ _).symm

theorem extnameStr_eq_of_basename_b (s : String) (h : basenameOf s = "b") :
    extnameStr s = "" := by
  unfold extnameStr
  rw [h]
  rfl

/-- Under a missing candidate base with an extensionless basename, the
extension loop returns the candidate of the first extension whose
suffixed path exists (by `access`). -/
theorem tryExts_eq_find (base : String) (fs : FileSystem)
    (hbase : fs base = none) (hext : extnameStr base = "") :
    ∀ exts, tryExts base fs exts =
      (exts.find? (fun e => (fs (base ++ e)).isSome)).map
        (fun e => base ++ e) := by
  intro exts
  induction exts with
  | nil => rfl
  | cons e rest ih =>
    rw [tryExts, hext]
    by_cases he : e = ""
    · subst he
      rw [if_pos rfl]
      rw [ih]
      rw [List.find?_cons_of_neg rest
        (show ¬ (fun e => (fs (base ++ e)).isSome) "" = true by
          simp [String.append_empty, hbase])]
    · rw [if_neg (fun hc => he hc.symm)]
      by_cases hfs : (fs (base ++ e)).isSome = true
      · rw [if_pos hfs]
        rw [List.find?_cons_of_pos rest
          (show (fun e => (fs (base ++ e)).isSome) e = true from hfs)]
        rfl
      · rw [if_neg hfs]
        rw [ih]
        rw [List.find?_cons_of_neg rest
          (show ¬ (fun e => (fs (base ++ e)).isSome) e = true from hfs)]

theorem resolveRelative_no_base (importPath fromFile : String)
    (exts : List String) (fs : FileSystem)
    (hbase : fs (resolvePath (dirnameStr fromFile) importPath) = none) :
    resolveRelative importPath fromFile exts fs =
      tryExts (resolvePath (dirnameStr fromFile) importPath) fs exts := by
  unfold resolveRelative resolveBase
  simp only [hbase]

theorem resolvePath_absolute (d s : String) (h : jsStartsWith s "/" = true) :
    resolvePath d s = normalizeAbs s := by
  unfold resolvePath
  rw [if_pos h]

theorem basename_resolve_dot_b (fromFile : String) :
    basenameOf (resolvePath (dirnameStr fromFile) "./b") = "b" := by
  rw [resolve_dot_b]
  rw [basenameOf_renderAbs _ ?_ (by simp)]
  · rw [List.getLastD_concat]
  · intro x hx
    rcases List.mem_append.mp hx with h1 | h2
    · exact (normalizeAbs_segs (dirnameStr fromFile) x h1).1
    · simp only [List.mem_singleton] at h2
      subst h2
      exact ⟨by decide, by decide⟩

theorem find?_isSome_eq_isFile (fs : FileSystem) (base : String) :
    ∀ exts : List String,
      (∀ e ∈ exts, fs (base ++ e) ≠ some FKind.dir) →
      exts.find? (fun e => (fs (base ++ e)).isSome) =
        exts.find? (fun e => decide (fs (base ++ e) = some FKind.file)) := by
  intro exts
  induction exts with
  | nil => intro _; rfl
  | cons e rest ih =>
    intro hnd
    have heq : ((fs (base ++ e)).isSome) =
        (decide (fs (base ++ e) = some FKind.file)) := by
      cases hfe : fs (base ++ e) with
      | none => simp
      | some k =>
        cases k with
        | file => simp
        | dir => exact absurd hfe (hnd e (List.mem_cons_self _ _))
    rw [List.find?_cons, List.find?_cons, heq]
    cases decide (fs (base ++ e) = some FKind.file) with
    | true => rfl
    | false => exact ih (fun x hx => hnd x (List.mem_cons_of_mem _ hx))

/-- C6: with both `b.ts` and `b.js` present as files beside the importing
file and `./b` naming no existing entry, an extension priority beginning
`.ts`, `.js` always resolves `'./b'` to `b.ts`; and in general (all
existing extension candidates being regular files — the code probes them
with `access`, which cannot distinguish kinds), the candidate returned is
the one for the first extension in priority order that exists as a
file. -/
theorem claim_C6_extension_priority (fs : FileSystem) (fromFile : String) :
    (∀ rest : List String,
      fs (resolvePath (dirnameStr fromFile) "./b") = none →
      fs (resolvePath (dirnameStr fromFile) "./b" ++ ".ts") = some FKind.file →
      fs (resolvePath (dirnameStr fromFile) "./b" ++ ".js") = some FKind.file →
      resolveImport "./b" fromFile
        { baseUrl := none, paths := none,
          extensions := some (".ts" :: ".js" :: rest) } fs =
        some (resolvePath (dirnameStr fromFile) "./b" ++ ".ts")) ∧
    (∀ exts : List String,
      fs (resolvePath (dirnameStr fromFile) "./b") = none →
      (∀ e ∈ exts,
        fs (resolvePath (dirnameStr fromFile) "./b" ++ e) ≠ some FKind.dir) →
      resolveImport "./b" fromFile
        { baseUrl := none, paths := none, extensions := some exts } fs =
        (exts.find? (fun e =>
          decide (fs (resolvePath (dirnameStr fromFile) "./b" ++ e) =
            some FKind.file))).map
          (fun e => resolvePath (dirnameStr fromFile) "./b" ++ e)) := by
  have hext : extnameStr (resolvePath (dirnameStr fromFile) "./b") = "" :=
    extnameStr_eq_of_basename_b _ (basename_resolve_dot_b fromFile)
  constructor
  · intro rest hbase hts _
    unfold resolveImport
    rw [if_pos (by decide)]
    show resolveRelative "./b" fromFile (".ts" :: ".js" :: rest) fs = _
    rw [resolveRelative_no_base _ _ _ _ hbase]
    rw [tryExts_eq_find _ _ hbase hext]
    rw [List.find?_cons_of_pos (".js" :: rest)
      (show (fun e =>
        (fs (resolvePath (dirnameStr fromFile) "./b" ++ e)).isSome) ".ts" = true
        from by simp [hts])]
    rfl
  · intro exts hbase hnd
    unfold resolveImport
    rw [if_pos (by decide)]
    show resolveRelative "./b" fromFile exts fs = _
    rw [resolveRelative_no_base _ _ _ _ hbase]
    rw [tryExts_eq_find _ _ hbase hext]
    rw [find?_isSome_eq_isFile fs _ exts hnd]

def c6fs : FileSystem := fun p =>
  if p = "/r/b.ts" ∨ p = "/r/b.js" then some FKind.file else none

theorem claim_C6_extension_priority_witness :
    (c6fs (resolvePath (dirnameStr "/r/a.ts") "./b") = none) ∧
    (c6fs (resolvePath (dirnameStr "/r/a.ts") "./b" ++ ".ts") = some FKind.file) ∧
    (c6fs (resolvePath (dirnameStr "/r/a.ts") "./b" ++ ".js") = some FKind.file) ∧
    resolveImport "./b" "/r/a.ts"
      { baseUrl := none, paths := none, extensions := some [".ts", ".js"] } c6fs =
      some (resolvePath (dirnameStr "/r/a.ts") "./b" ++ ".ts") :=
  ⟨by decide, by decide, by decide,
    (claim_C6_extension_priority c6fs "/r/a.ts").1 []
      (by decide) (by decide) (by decide)⟩

/-- C7: resolving `'@app/utils'` under `paths = {"@app/*": ["src/*"]}`
with `baseUrl = root` gives exactly the same result, on every filesystem
snapshot, as resolving `'./src/utils'` from a file directly inside
`root`: the alias expansion (capture, template substitution, resolution
against `baseUrl` with alias lookup disabled) coincides with relative
resolution of the substituted path.  `root` is any normalized absolute
path; the file in `root` is any direct entry (`name` is one segment). -/
theorem claim_C7_alias_equivalence (fs : FileSystem)
    (root name fromFile : String) (exts : Option (List String))
    (hroot : normalizeAbs root = root) (hname : goodSeg name) :
    resolveImport "@app/utils" fromFile
      { baseUrl := some root, paths := some [("@app/*", ["src/*"])],
        extensions := exts } fs =
    resolveImport "./src/utils" (root ++ "/" ++ name)
      { baseUrl := some root, paths := some [("@app/*", ["src/*"])],
        extensions := exts } fs := by
  have hsegroot : splitPath root = normalizeSegs (splitPath root) := by
    conv_lhs => rw [← hroot]
    exact splitPath_normalizeAbs root
  have hXnorm : normalSegs (normalizeSegs (splitPath root)) :=
    normalizeAbs_segs root
  have hfull : resolvePath root "src/utils" =
      renderAbs (normalizeSegs (splitPath root) ++ ["src", "utils"]) := by
    unfold resolvePath
    rw [if_neg (by decide)]
    unfold normalizeAbs
    rw [splitPath_append]
    rw [show splitPath "src/utils" = ["src", "utils"] from by decide]
    congr 1
    unfold normalizeSegs
    rw [List.foldl_append]
    exact normalizeSegs_foldl_no_dots ["src", "utils"] _ (by decide)
  have hbase2 : resolvePath root "./src/utils" =
      renderAbs (normalizeSegs (splitPath root) ++ ["src", "utils"]) := by
    unfold resolvePath
    rw [if_neg (by decide)]
    unfold normalizeAbs
    rw [splitPath_append]
    rw [show splitPath "./src/utils" = [".", "src", "utils"] from by decide]
    congr 1
    unfold normalizeSegs
    rw [List.foldl_append]
    rw [List.foldl_cons]
    rw [if_pos rfl]
    exact normalizeSegs_foldl_no_dots ["src", "utils"] _ (by decide)
  have hwfFull : normalSegs (normalizeSegs (splitPath root) ++ ["src", "utils"]) := by
    intro x hx
    rcases List.mem_append.mp hx with h1 | h2
    · exact hXnorm x h1
    · simp only [List.mem_cons, List.mem_singleton] at h2
      rcases h2 with rfl | rfl | hc
      · exact ⟨⟨by decide, by decide⟩, by decide, by decide⟩
      · exact ⟨⟨by decide, by decide⟩, by decide, by decide⟩
      · simp at hc
  have hfstart : jsStartsWith (resolvePath root "src/utils") "/" = true := by
    rw [hfull]
    exact jsStartsWith_renderAbs _
  have hfidem : resolvePath (dirnameStr fromFile) (resolvePath root "src/utils") =
      resolvePath root "src/utils" := by
    rw [resolvePath_absolute _ _ hfstart]
    rw [hfull]
    exact normalizeAbs_renderAbs _ hwfFull
  have hdir : dirnameStr (root ++ "/" ++ name) = root := by
    unfold dirnameStr
    rw [splitPath_append, splitPath_singleton name hname, List.dropLast_concat]
    conv_rhs => rw [← hroot]
    unfold normalizeAbs
    congr 1
  have halias : resolvePathAlias "@app/utils" fromFile
      { baseUrl := some root, paths := some [("@app/*", ["src/*"])],
        extensions := exts } fs =
      match resolveBase (resolvePath root "src/utils")
        (exts.getD defaultExtensions) fs with
      | some r => some r
      | none => none := by
    unfold resolvePathAlias
    dsimp only
    rw [aliasLoop]
    simp only [show matchPattern "@app/*" "@app/utils" = some "utils" from by decide]
    rw [mappingLoop]
    simp only [show replaceFirstStar "src/*" "utils" = "src/utils" from by decide]
    unfold resolveImportNoPaths
    rw [hfstart, Bool.or_true]
    rw [if_pos rfl]
    unfold resolveRelative
    rw [hfidem]
    cases resolveBase (resolvePath root "src/utils")
      (exts.getD defaultExtensions) fs with
    | some r => rfl
    | none => rfl
  have hLHS : resolveImport "@app/utils" fromFile
      { baseUrl := some root, paths := some [("@app/*", ["src/*"])],
        extensions := exts } fs =
      match resolveBase (resolvePath root "src/utils")
        (exts.getD defaultExtensions) fs with
      | some r => some r
      | none => none := by
    unfold resolveImport
    rw [if_neg (by decide)]
    dsimp only
    rw [halias]
    cases resolveBase (resolvePath root "src/utils")
      (exts.getD defaultExtensions) fs with
    | some r => rfl
    | none => rfl
  have hRHS : resolveImport "./src/utils" (root ++ "/" ++ name)
      { baseUrl := some root, paths := some [("@app/*", ["src/*"])],
        extensions := exts } fs =
      resolveBase (resolvePath root "src/utils")
        (exts.getD defaultExtensions) fs := by
    unfold resolveImport
    rw [if_pos (by decide)]
    show resolveRelative "./src/utils" (root ++ "/" ++ name)
      (exts.getD defaultExtensions) fs = _
    unfold resolveRelative
    rw [hdir, hbase2, ← hfull]
  rw [hLHS, hRHS]
  cases resolveBase (resolvePath root "src/utils")
    (exts.getD defaultExtensions) fs with
  | some r => rfl
  | none => rfl

theorem claim_C7_alias_equivalence_witness :
    (normalizeAbs "/r" = "/r") ∧ goodSeg "me.ts" ∧
    (resolveImport "@app/utils" "/q/x.ts"
      { baseUrl := some "/r", paths := some [("@app/*", ["src/*"])],
        extensions := none }
      (fun p => if p = "/r/src/utils.ts" then some FKind.file else none) =
    resolveImport "./src/utils" ("/r" ++ "/" ++ "me.ts")
      { baseUrl := some "/r", paths := some [("@app/*", ["src/*"])],
        extensions := none }
      (fun p => if p = "/r/src/utils.ts" then some FKind.file else none)) :=
  ⟨by decide, ⟨by decide, by decide⟩,
    claim_C7_alias_equivalence
      (fun p => if p = "/r/src/utils.ts" then some FKind.file else none)
      "/r" "me.ts" "/q/x.ts" none (by decide) ⟨by decide, by decide⟩⟩

/-! ## The parser (`src/graph/parser.ts`)

`es-module-lexer` is an external dependency; its `parse` is embedded as
an abstract `Lexer` function that either yields raw import/export
records or fails.  The regex machinery of `parser.ts` is embedded as
character-level scanners with the exact alternation and greediness
semantics of the JS patterns (greedy runs followed by disjoint
characters need no backtracking, which makes the scanners equivalent to
the regexes on every input).  `\s` and `\w` are modeled over ASCII. -/

/-- A raw import record of `es-module-lexer` (`n` = specifier, `d` = -1
for static imports, -2 for `import.meta`, ≥ 0 for dynamic imports;
`ss`/`se` = statement span). -/
structure RawImport where
  n : Option String
  d : Int
  ss : Nat
  se : Nat
  deriving DecidableEq, Repr

/-- A raw export record of `es-module-lexer` (`n` = exported name,
`s`/`e` = name span). -/
structure RawExport where
  n : String
  s : Nat
  e : Nat
  deriving DecidableEq, Repr

/-- The abstract structural parser (`es-module-lexer`'s `parse`): either
raw records or a thrown error. -/
abbrev Lexer : Type := String → Except String (List RawImport × List RawExport)

/-- JS `\s` on ASCII. -/
def isWS (c : Char) : Bool :=
  c == ' ' || c == '\t' || c == '\n' || c == '\r' || c == '\x0b' || c == '\x0c'

/-- JS `\w`: `[A-Za-z0-9_]`. -/
def isWordChar (c : Char) : Bool :=
  c.isAlpha || c.isDigit || c == '_'

/-- JS `String.prototype.trim` (ASCII whitespace). -/
def jsTrim (s : String) : String :=
  ⟨((s.data.dropWhile isWS).reverse.dropWhile isWS).reverse⟩

/-- JS `String.prototype.slice` with `Int` indices (negative indices
count from the end; the range is clamped). -/
def jsSliceStr (s : String) (a b : Int) : String :=
  let len : Int := s.length
  let a' : Int := if a < 0 then max (len + a) 0 else min a len
  let b' : Int := if b < 0 then max (len + b) 0 else min b len
  ⟨(s.data.drop a'.toNat).take (b' - a').toNat⟩

/-- `content[i]` for an in-bounds index. -/
def charAt (s : String) (i : Nat) : Char :=
  s.data.getD i ' '

/-! ### Scanner combinators (each eats a prefix, returning the number of
characters consumed and the rest) -/

def eatPrefix (p l : List Char) : Option (Nat × List Char) :=
  if p.isPrefixOf l then some (p.length, l.drop p.length) else none

/-- `\s*`. -/
def eatWS0 (l : List Char) : Nat × List Char :=
  let n := (l.takeWhile isWS).length
  (n, l.drop n)

/-- `\s+`. -/
def eatWS1 (l : List Char) : Option (Nat × List Char) :=
  let n := (l.takeWhile isWS).length
  if n = 0 then none else some (n, l.drop n)

/-- `\w+`, returning the captured run. -/
def eatWord1 (l : List Char) : Option (Nat × String × List Char) :=
  let run := l.takeWhile isWordChar
  if run.length = 0 then none else some (run.length, ⟨run⟩, l.drop run.length)

def eatChar (c : Char) (l : List Char) : Option (Nat × List Char) :=
  match l with
  | c' :: rest => if c' = c then some (1, rest) else none
  | [] => none

/-- A maximal run of characters not in `banned`, required non-empty,
returning the captured run (e.g. `[^}]+`, `[^'"]+`). -/
def eatRunNot1 (banned : List Char) (l : List Char) : Option (Nat × String × List Char) :=
  let run := l.takeWhile (fun c => ! banned.contains c)
  if run.length = 0 then none else some (run.length, ⟨run⟩, l.drop run.length)

/-- A maximal, possibly empty run of characters not in `banned`
(e.g. `[^}]*`). -/
def eatRunNot0 (banned : List Char) (l : List Char) : Nat × List Char :=
  let run := l.takeWhile (fun c => ! banned.contains c)
  (run.length, l.drop run.length)

/-- `['"]`. -/
def eatQuote (l : List Char) : Option (Nat × List Char) :=
  match l with
  | c :: rest => if c = '\'' ∨ c = '"' then some (1, rest) else none
  | [] => none

/-- `['"]([^'"]+)['"]` — a quoted literal, capturing the body (the JS
character class excludes both quote kinds regardless of the opener). -/
def eatQuoted (l : List Char) : Option (Nat × String) :=
  match eatQuote l with
  | none => none
  | some (n1, l1) =>
    match eatRunNot1 ['\'', '"'] l1 with
    | none => none
    | some (n2, body, l2) =>
      match eatQuote l2 with
      | none => none
      | some (n3, _) => some (n1 + n2 + n3, body)

/-! ### The concrete matchers, one per JS regex -/

/-- Matcher for the namespace shape of `extractImportSpecifiers`:
the first regex, matched at the current position. -/
def matchNamespaceAt (l : List Char) : Option String :=
  match eatPrefix "import".data l with
  | none => none
  | some (_, l1) =>
    match eatWS1 l1 with
    | none => none
    | some (_, l2) =>
      match eatChar '*' l2 with
      | none => none
      | some (_, l3) =>
        match eatWS1 l3 with
        | none => none
        | some (_, l4) =>
          match eatPrefix "as".data l4 with
          | none => none
          | some (_, l5) =>
            match eatWS1 l5 with
            | none => none
            | some (_, l6) =>
              match eatWord1 l6 with
              | none => none
              | some (_, cap, _) => some cap

/-- Matcher for the default-import shape at the current position. -/
def matchDefaultAt (l : List Char) : Option String :=
  match eatPrefix "import".data l with
  | none => none
  | some (_, l1) =>
    match eatWS1 l1 with
    | none => none
    | some (_, l2) =>
      match eatWord1 l2 with
      | none => none
      | some (_, cap, l3) =>
        match eatWS1 l3 with
        | none => none
        | some (_, l4) =>
          match eatPrefix "from".data l4 with
          | none => none
          | some _ => some cap

/-- Matcher for the default-plus-named shape at the current position. -/
def matchDefaultNamedAt (l : List Char) : Option String :=
  match eatPrefix "import".data l with
  | none => none
  | some (_, l1) =>
    match eatWS1 l1 with
    | none => none
    | some (_, l2) =>
      match eatWord1 l2 with
      | none => none
      | some (_, cap, l3) =>
        let (_, l4) := eatWS0 l3
        match eatChar ',' l4 with
        | none => none
        | some (_, l5) =>
          let (_, l6) := eatWS0 l5
          match eatChar '{' l6 with
          | none => none
          | some _ => some cap

/-- Matcher for a brace group with non-empty body at the current
position. -/
def matchBracesAt (l : List Char) : Option String :=
  match eatChar '{' l with
  | none => none
  | some (_, l1) =>
    match eatRunNot1 ['}'] l1 with
    | none => none
    | some (_, inner, l2) =>
      match eatChar '}' l2 with
      | none => none
      | some _ => some inner

/-- Matcher for a re-export source clause at the current position. -/
def matchFromSourceAt (l : List Char) : Option String :=
  match eatPrefix "from".data l with
  | none => none
  | some (_, l1) =>
    match eatWS1 l1 with
    | none => none
    | some (_, l2) =>
      match eatQuoted l2 with
      | none => none
      | some (_, body) => some body

/-- Leftmost-match search: JS regex `match` tries each start position in
order. -/
def firstMatch (m : List Char → Option String) : List Char → Option String
  | [] => m []
  | l@(_ :: rest) =>
    match m l with
    | some r => some r
    | none => firstMatch m rest

/-- The separator of the `as`-alias split in `extractImportSpecifiers`,
matched at the current position; returns the number of characters it
spans. -/
def splitAsSepLen (l : List Char) : Option Nat :=
  match eatWS1 l with
  | none => none
  | some (n1, l1) =>
    match eatPrefix "as".data l1 with
    | none => none
    | some (n2, l2) =>
      match eatWS1 l2 with
      | none => none
      | some (n3, _) => some (n1 + n2 + n3)

/-- JS `split` on the `as`-separator regex: cut at each leftmost
separator occurrence.  The fuel is the input length plus one; every step
consumes at least one character, so it never runs out. -/
def splitAsAux : Nat → List Char → List Char → List String
  | 0, acc, _ => [⟨acc.reverse⟩]
  | _ + 1, acc, [] => [⟨acc.reverse⟩]
  | fuel + 1, acc, l@(c :: rest) =>
    match splitAsSepLen l with
    | some n => ⟨acc.reverse⟩ :: splitAsAux fuel [] (l.drop n)
    | none => splitAsAux fuel (c :: acc) rest

def splitOnAsRegex (s : String) : List String :=
  splitAsAux (s.length + 1) [] s.data

/-- `extractImportSpecifiers` of `parser.ts`.  The four regex probes run
in source order; the trailing `import(` test discards any collected
specifiers exactly as the early `return` in the code does. -/
def extractImportSpecifiers (statement : String) : List String × Bool :=
  match firstMatch matchNamespaceAt statement.data with
  | some cap => ([cap], true)
  | none =>
    let s1 := match firstMatch matchDefaultAt statement.data with
      | some cap => if jsIncludes statement "\x7b" then [] else [cap]
      | none => []
    let s2 := match firstMatch matchDefaultNamedAt statement.data with
      | some cap => [cap]
      | none => []
    let s3 := match firstMatch matchBracesAt statement.data with
      | some inner =>
        ((splitOnChar ',' [] inner.data).map fun n =>
          jsTrim ((splitOnAsRegex (jsTrim n)).getLastD "")).filter
          fun n => ¬ n.isEmpty
      | none => []
    if jsIncludes statement "import(" then ([], false)
    else (s1 ++ s2 ++ s3, false)

/-- `findExportStatementStart` of `parser.ts`: scan backwards from `pos`
for the word `export`, at most 200 characters back.  The recursion
argument is the current index `i` of the JS `while (i > 0)` loop;
the result can be negative only through JS `slice` wrap-around on
`i - 6`, hence the `Int` codomain. -/
def findExportStartAux (content : String) (pos : Nat) : Nat → Int
  | 0 => (pos : Int)
  | i + 1 =>
    if jsSliceStr content ((i : Int) + 1 - 6) ((i : Int) + 1) = "export"
    then (i : Int) + 1 - 6
    else if (pos : Int) - (i : Int) > 200 then (pos : Int)
    else findExportStartAux content pos i

def findExportStatementStart (content : String) (pos : Nat) : Int :=
  findExportStartAux content pos pos

/-- `findExportStatementEnd` of `parser.ts`: scan forwards from `pos`
for `;` or a newline, at most 500 characters; otherwise clamp to
`pos + 100`.  Fuel-indexed transcription of the `while (i < length)`
loop; the fuel `length + 1` covers every iteration. -/
def findExportEndAux (content : String) (pos : Nat) : Nat → Nat → Nat
  | _, 0 => min (pos + 100) content.length
  | i, fuel + 1 =>
    if i < content.length then
      if charAt content i = ';' ∨ charAt content i = '\n' then i + 1
      else if i + 1 - pos > 500 then min (pos + 100) content.length
      else findExportEndAux content pos (i + 1) fuel
    else min (pos + 100) content.length

def findExportStatementEnd (content : String) (pos : Nat) : Nat :=
  findExportEndAux content pos pos (content.length + 1)

/-- The `require(...)` call shape, matched at the current position;
returns the characters consumed and the captured specifier. -/
def matchRequireLen (l : List Char) : Option (Nat × String) :=
  match eatPrefix "require".data l with
  | none => none
  | some (n1, l1) =>
    let (n2, l2) := eatWS0 l1
    match eatChar '(' l2 with
    | none => none
    | some (n3, l3) =>
      let (n4, l4) := eatWS0 l3
      match eatQuoted l4 with
      | none => none
      | some (n5, body) =>
        let (n6, l6) := eatWS0 (l4.drop n5)
        match eatChar ')' l6 with
        | none => none
        | some (n7, _) => some (n1 + n2 + n3 + n4 + n5 + n6 + n7, body)

/-- The bracketed alternation of the fallback static-import regex
(namespace, default with optional named group, or named braces),
dispatched on its first character — the three branches start with
disjoint characters, as in the JS alternation. -/
def matchImportClauseLen (l : List Char) : Option (Nat × List Char) :=
  match l with
  | [] => none
  | c :: _ =>
    if c = '*' then
      match eatChar '*' l with
      | none => none
      | some (n1, l1) =>
        match eatWS1 l1 with
        | none => none
        | some (n2, l2) =>
          match eatPrefix "as".data l2 with
          | none => none
          | some (n3, l3) =>
            match eatWS1 l3 with
            | none => none
            | some (n4, l4) =>
              match eatWord1 l4 with
              | none => none
              | some (n5, _, l5) => some (n1 + n2 + n3 + n4 + n5, l5)
    else if c = '{' then
      match eatChar '{' l with
      | none => none
      | some (n1, l1) =>
        let (n2, l2) := eatRunNot0 ['}'] l1
        match eatChar '}' l2 with
        | none => none
        | some (n3, l3) => some (n1 + n2 + n3, l3)
    else if isWordChar c then
      match eatWord1 l with
      | none => none
      | some (n1, _, l1) =>
        let (n2, l2) := eatWS0 l1
        match eatChar ',' l2 with
        | none => some (n1, l1)
        | some (n3, l3) =>
          let (n4, l4) := eatWS0 l3
          match eatChar '{' l4 with
          | none => none
          | some (n5, l5) =>
            let (n6, l6) := eatRunNot0 ['}'] l5
            match eatChar '}' l6 with
            | none => none
            | some (n7, l7) => some (n1 + n2 + n3 + n4 + n5 + n6 + n7, l7)
    else none

/-- The fallback static ES-import regex, matched at the current
position. -/
def matchImportStmtLen (l : List Char) : Option (Nat × String) :=
  match eatPrefix "import".data l with
  | none => none
  | some (n1, l1) =>
    match eatWS1 l1 with
    | none => none
    | some (n2, l2) =>
      match matchImportClauseLen l2 with
      | none => none
      | some (n3, l3) =>
        match eatWS1 l3 with
        | none => none
        | some (n4, l4) =>
          match eatPrefix "from".data l4 with
          | none => none
          | some (n5, l5) =>
            match eatWS1 l5 with
            | none => none
            | some (n6, l6) =>
              match eatQuoted l6 with
              | none => none
              | some (n7, body) =>
                some (n1 + n2 + n3 + n4 + n5 + n6 + n7, body)

/-- The dynamic-import regex, matched at the current position. -/
def matchDynamicImportLen (l : List Char) : Option (Nat × String) :=
  match eatPrefix "import".data l with
  | none => none
  | some (n1, l1) =>
    let (n2, l2) := eatWS0 l1
    match eatChar '(' l2 with
    | none => none
    | some (n3, l3) =>
      let (n4, l4) := eatWS0 l3
      match eatQuoted l4 with
      | none => none
      | some (n5, body) =>
        let (n6, l6) := eatWS0 (l4.drop n5)
        match eatChar ')' l6 with
        | none => none
        | some (n7, _) => some (n1 + n2 + n3 + n4 + n5 + n6 + n7, body)

/-- A JS `exec` loop over a global regex: find the leftmost match,
record its capture, resume at the match end (`lastIndex`).  Fuel as in
`splitAsAux`: every step consumes at least one character. -/
def scanAll (m : List Char → Option (Nat × String)) :
    Nat → List Char → List String
  | 0, _ => []
  | _ + 1, [] => []
  | fuel + 1, l@(_ :: rest) =>
    match m l with
    | some (n, cap) => cap :: scanAll m fuel (l.drop n)
    | none => scanAll m fuel rest

def execAll (m : List Char → Option (Nat × String)) (content : String) :
    List String :=
  scanAll m (content.length + 1) content.data

/-- The `exec` loop of `extractRequires`, which additionally keeps the
reversed prefix before the current position so that the
comment-line check (`lastIndexOf` of a newline up to the match index,
then the slice up to the match index) can be evaluated. -/
def requireScanAux : Nat → List Char → List Char → List ImportInfo
  | 0, _, _ => []
  | _ + 1, _, [] => []
  | fuel + 1, revPre, l@(c :: rest) =>
    match matchRequireLen l with
    | some (n, src) =>
      let lineContent : String := ⟨(revPre.takeWhile fun ch => ch != '\n').reverse⟩
      let tail := requireScanAux fuel ((l.take n).reverse ++ revPre) (l.drop n)
      if jsIncludes lineContent "//" ∨ jsStartsWith (jsTrim lineContent) "*"
      then tail
      else ⟨src, [], false, false⟩ :: tail
    | none => requireScanAux fuel (c :: revPre) rest

/-- `extractRequires` of `parser.ts`. -/
def extractRequires (content : String) : List ImportInfo :=
  requireScanAux (content.length + 1) [] content.data

/-- `extractImportsWithRegex` of `parser.ts`: static imports, then
dynamic imports, then `require` calls. -/
def extractImportsWithRegex (content : String) : List ImportInfo :=
  ((execAll matchImportStmtLen content).map fun src => ⟨src, [], false, false⟩)
    ++ ((execAll matchDynamicImportLen content).map fun src => ⟨src, [], false, true⟩)
    ++ extractRequires content

/-- The import-processing loop body of `parseFile`'s `try` branch. -/
def processImport (content : String) (acc : List ImportInfo) (imp : RawImport) :
    List ImportInfo :=
  match imp.n with
  | none => acc
  | some src =>
    if imp.d = -2 then acc
    else
      let isDynamic := decide (imp.d > -1)
      let statementText := jsSliceStr content (imp.ss : Int) (imp.se : Int)
      let (specifiers, isNamespace) := extractImportSpecifiers statementText
      acc ++ [⟨src, specifiers, isNamespace, isDynamic⟩]

/-- The export-processing loop body of `parseFile`'s `try` branch. -/
def processExport (content : String) (acc : List ExportInfo) (exp : RawExport) :
    List ExportInfo :=
  let statementStart := findExportStatementStart content exp.s
  let statementEnd := findExportStatementEnd content exp.e
  let statementText := jsSliceStr content statementStart (statementEnd : Int)
  let isDefault := exp.n == "default"
  let isNamespace := jsIncludes statementText "export *"
  let source := firstMatch matchFromSourceAt statementText.data
  acc ++ [⟨source, [exp.n], isNamespace, isDefault⟩]

/-- `parseFile` of `parser.ts`, with the external `es-module-lexer`
`parse` passed in as `lexer` and the file content in place of the
`readFile` result.  The JS `try`/`catch` around the lexer call is the
`Except` match: on success the structural records are processed and the
`require` scan is appended; on failure the regex fallback alone supplies
the imports and the exports stay empty. -/
def parseFile (lexer : Lexer) (filePath content : String) : ModuleInfo :=
  match lexer content with
  | Except.ok (parsedImports, parsedExports) =>
    ⟨filePath,
      parsedImports.foldl (processImport content) [] ++ extractRequires content,
      parsedExports.foldl (processExport content) []⟩
  | Except.error _ =>
    ⟨filePath, extractImportsWithRegex content, []⟩

/-- A lexer that always fails, and a content exercising the three
fallback import shapes (static, dynamic, `require`). -/
def c9lexer : Lexer := fun _ => Except.error "parse error"

def c9content : String :=
  "import x from './a'\nimport('./b')\nconst z = require('./c')"

/-- **C9.** `parseFile` never raises — its embedding is a total
function into `ModuleInfo` — and whenever the structural lexer fails on
the content, the result is exactly the regex fallback applied to the raw
text as imports with no exports, not a propagated error; in particular
on empty content the result is the empty (still valid) `ModuleInfo`. -/
theorem claim_C9_lexer_fallback (lexer : Lexer) (filePath content err : String)
    (h : lexer content = Except.error err) :
    parseFile lexer filePath content =
      ⟨filePath, extractImportsWithRegex content, []⟩ ∧
    parseFile (fun _ => Except.error err) filePath "" = ⟨filePath, [], []⟩ := by
  constructor
  · unfold parseFile
    rw [h]
  · rfl

/-- Concrete instantiation: the failing lexer on a file exercising all
three fallback shapes yields exactly the regex-extracted imports. -/
theorem claim_C9_lexer_fallback_witness :
    (c9lexer c9content = Except.error "parse error" ∧
      parseFile c9lexer "/t/a.ts" c9content =
        ⟨"/t/a.ts", extractImportsWithRegex c9content, []⟩) ∧
    extractImportsWithRegex c9content =
      [⟨"./a", [], false, false⟩, ⟨"./b", [], false, true⟩,
        ⟨"./c", [], false, false⟩] := by
  refine ⟨⟨rfl,
    (claim_C9_lexer_fallback c9lexer "/t/a.ts" c9content "parse error" rfl).1⟩, ?_⟩
  decide

end DocPulse
